import Mathlib

/-! The anonymisation pipeline of dems-api-server.

A shallow embedding of `controllers/anonymous/anonymous.go` (transformer
builders, transformer worker, CSV writer), of the query planner and the
count query of `controllers/query/query.go`, and of the worker count of
`handlers/request/request.go`.

Conventions of the embedding.

* A Go `string` is modelled as the list of its Unicode code points
  (`GoString`), so the model covers the valid UTF-8 strings. `len` is the
  byte length, as in Go; positions handed to slice expressions are byte
  offsets.
* A function that may panic at run time returns `Except String _`; the
  error carries the text of the Go panic.
* Library code that is not part of the repository is modelled by its
  documented behaviour (`regexp`, `strconv.ParseInt`, `strconv.ParseBool`,
  `strings`, `encoding/hex`) or taken as a parameter (`float64` with
  `strconv.ParseFloat`, `math` and float formatting: `FloatLib`; the
  digests of `crypto`: `CryptoLib`). General statements hold for every
  value of the parameter; the code is evaluated at concrete inputs on two
  instances of `FloatLib`, exact fractions (`exactLib`) and IEEE-754
  binary64 (`f64Lib`).
* Closures become functions of their captured values; the one closure with
  mutable captured state, the digest object of `buildEncryptingFunc`,
  passes that state explicitly (`CellFunc`).
* Memory is unbounded, and lengths stay below `2^53`, so that the
  conversion of a length to `float64` and back is the identity.
* Channels are modelled by the sequence of values received from them.
-/

namespace Dems

deriving instance DecidableEq for Except

/-- A Go string, as the sequence of its code points. -/
abbrev GoString := List Char

/-- Go `len(s)`: the number of bytes of the UTF-8 encoding. -/
def len (s : GoString) : Nat := (s.map Char.utf8Size).sum

/-- The characters of `s` that lie wholly before byte offset `n`. -/
def takeBytes : GoString → Nat → GoString
  | [], _ => []
  | c :: cs, n => if c.utf8Size ≤ n then c :: takeBytes cs (n - c.utf8Size) else []

/-- The characters of `s` from byte offset `n` on (`n` a character boundary). -/
def dropBytes : GoString → Nat → GoString
  | [], _ => []
  | c :: cs, n => if n = 0 then c :: cs else dropBytes cs (n - c.utf8Size)

/-- Whether byte offset `n` falls on a character boundary of `s`. -/
def isBoundary : GoString → Nat → Bool
  | [], n => n == 0
  | c :: cs, n => n == 0 || (decide (c.utf8Size ≤ n) && isBoundary cs (n - c.utf8Size))

/-- Go slice expression `s[lo:hi]` on a string. Out-of-range bounds panic.
Bounds that split a multi-byte character have no image in `GoString`; they
are reported separately and are shown unreachable where it matters. -/
def goSlice (s : GoString) (lo hi : Int) : Except String GoString :=
  if lo < 0 ∨ hi < lo ∨ (len s : Int) < hi then
    .error "slice bounds out of range"
  else if isBoundary s lo.toNat && isBoundary s hi.toNat then
    .ok (takeBytes (dropBytes s lo.toNat) (hi.toNat - lo.toNat))
  else
    .error "unmodelled: slice splits a character"

/-- Go index expression `xs[i]` on a slice of ints; `nil` is the empty list. -/
def goIndex (xs : List Int) (i : Nat) : Except String Int :=
  match xs.get? i with
  | some v => .ok v
  | none => .error "index out of range"

/-- Go `strings.Repeat(s, count)`. -/
def stringsRepeat (s : GoString) (count : Int) : Except String GoString :=
  if count < 0 then .error "strings: negative Repeat count"
  else .ok ((List.replicate count.toNat s).flatten)

/-- Decimal value of an ASCII digit. -/
def digitVal (c : Char) : Option Nat :=
  if '0' ≤ c ∧ c ≤ '9' then some (c.toNat - '0'.toNat) else none

/-- Value of a non-empty run of decimal digits, most significant first. -/
def parseDigits : GoString → Nat → Option Nat
  | [], acc => some acc
  | c :: cs, acc =>
    match digitVal c with
    | some d => parseDigits cs (acc * 10 + d)
    | none => none

/-- Go `strconv.ParseUint(s, 10, 64)`: `none` is a non-nil error. -/
def parseUint (s : GoString) : Option Nat :=
  if s = [] then none
  else match parseDigits s 0 with
    | some n => if n < 2 ^ 64 then some n else none
    | none => none

/-- Go `strconv.ParseInt(s, 10, 0)` on a 64-bit platform: an optional sign,
then decimal digits, within the range of `int64`; `none` is a non-nil error. -/
def parseInt (s : GoString) : Option Int :=
  match s with
  | [] => none
  | '+' :: rest =>
    match parseUint rest with
    | some n => if n < 2 ^ 63 then some (n : Int) else none
    | none => none
  | '-' :: rest =>
    match parseUint rest with
    | some n => if n ≤ 2 ^ 63 then some (-(n : Int)) else none
    | none => none
  | _ =>
    match parseUint s with
    | some n => if n < 2 ^ 63 then some (n : Int) else none
    | none => none

/-- Go `strconv.ParseBool`: `none` is a non-nil error. -/
def parseBool (s : GoString) : Option Bool :=
  if s ∈ ["1", "t", "T", "TRUE", "true", "True"].map String.toList then some true
  else if s ∈ ["0", "f", "F", "FALSE", "false", "False"].map String.toList then some false
  else none

/-- Go `%v` of an integer: its decimal rendering. -/
def fmtInt (z : Int) : GoString :=
  if z < 0 then '-' :: (Nat.repr z.natAbs).toList else (Nat.repr z.natAbs).toList

/-- Go two's-complement wrap-around of a 64-bit signed result. -/
def wrapInt64 (z : Int) : Int := (z + 2 ^ 63) % 2 ^ 64 - 2 ^ 63

/-- Record `AnoOption`: the option parameters of one anonymisation method. -/
structure AnoOption where
  Fore : GoString := []
  Aft : GoString := []
  MaskChar : GoString := []
  KeepLength : GoString := []
  Algorithm : GoString := []
  Position : Int := 0
  Unit : GoString := []
  Key : GoString := []
  Digest : GoString := []
  Lower : GoString := []
  Upper : GoString := []
  Bin : GoString := []
  Linear : GoString := []
deriving DecidableEq

/-- Record `Option` of the source: the anonymisation method of one field. -/
structure FieldOption where
  Method : GoString
  Options : AnoOption := {}
  Level : Int := 0
  Description : GoString := []
deriving DecidableEq

/-! ## The pattern of `buildMaskingFunc`

`regexp.MustCompile(fmt.Sprintf("(^.{%v})(.*)(.{%v}$)", fore, aft))`.
Go's `regexp/syntax` reads `.{n}` with `0 ≤ n ≤ 1000` as exactly `n`
characters other than a newline, rejects a repeat count above 1000 (so
`MustCompile` panics), and reads a brace that is not followed by a number
as a literal brace, so `.{-5}` is one character followed by the text
`{-5}`. -/

/-- The compiled pattern, determined by the two counts. -/
structure Regexp where
  fore : Int
  aft : Int
deriving DecidableEq

/-- Go `regexp.MustCompile` on the masking pattern. -/
def regexpMustCompile (fore aft : Int) : Except String Regexp :=
  if 1000 < fore ∨ 1000 < aft then .error "regexp: Compile: invalid repeat count"
  else .ok { fore := fore, aft := aft }

/-- Number of characters one `.{n}` item consumes. -/
def itemLen (n : Int) : Nat :=
  if 0 ≤ n then n.toNat else 1 + (1 + (fmtInt n).length + 1)

/-- Whether `cs`, of length `itemLen n`, is matched by the item `.{n}`. -/
def itemMatches (n : Int) (cs : GoString) : Bool :=
  if 0 ≤ n then cs.all (fun c => c != '\n')
  else match cs with
    | [] => false
    | c :: rest => c != '\n' && rest == '\x7b' :: (fmtInt n ++ ['\x7d'])

/-- Go `re.FindStringSubmatchIndex(s)` for the masking pattern: the byte
offsets of the whole match and of the three groups, or `nil` (the empty
list) when the pattern does not match. The anchors make the match unique. -/
def findStringSubmatchIndex (re : Regexp) (s : GoString) : List Int :=
  let n1 := itemLen re.fore
  let n3 := itemLen re.aft
  if s.length < n1 + n3 then []
  else
    let g1 := s.take n1
    let g2 := (s.drop n1).take (s.length - n1 - n3)
    let g3 := s.drop (s.length - n3)
    if itemMatches re.fore g1 && g2.all (fun c => c != '\n') && itemMatches re.aft g3 then
      [0, len s, 0, len g1, len g1, len g1 + len g2, len g1 + len g2, len s]
    else []

/-- The closure returned by `buildMaskingFunc` once its parameters parsed. -/
def maskingFunc (re : Regexp) (fore aft : Int) (maskChar : GoString) (keepLength : Bool)
    (inString : GoString) : Except String GoString :=
  if inString = [] then .ok []
  else if (len inString : Int) ≥ wrapInt64 (fore + aft) then
    let resIndex := findStringSubmatchIndex re inString
    if keepLength then do
      let r5 ← goIndex resIndex 5
      let r4 ← goIndex resIndex 4
      let maskLen := r5 - r4
      if len maskChar = 0 then throw "integer divide by zero"
      -- `math.Ceil(float64(maskLen / len(maskChar)))`: the quotient is an
      -- integer below 2^53, which the conversions and `Ceil` leave unchanged
      let repeatNum := Int.tdiv maskLen (len maskChar)
      let mask ← stringsRepeat maskChar repeatNum
      let r2 ← goIndex resIndex 2
      let r3 ← goIndex resIndex 3
      let head ← goSlice inString r2 r3
      let mid ← goSlice mask 0 maskLen
      let r6 ← goIndex resIndex 6
      let r7 ← goIndex resIndex 7
      let tail ← goSlice inString r6 r7
      pure (head ++ mid ++ tail)
    else do
      let r2 ← goIndex resIndex 2
      let r3 ← goIndex resIndex 3
      let head ← goSlice inString r2 r3
      let r6 ← goIndex resIndex 6
      let r7 ← goIndex resIndex 7
      let tail ← goSlice inString r6 r7
      pure (head ++ maskChar ++ tail)
  else .ok []

/-- Go `buildMaskingFunc`. The outer `Except` is a panic while building
(`regexp.MustCompile`); the inner one a panic of the returned function. -/
def buildMaskingFunc (options : AnoOption) :
    Except String (GoString → Except String GoString) :=
  match parseInt options.Fore with
  | none => .ok (fun _ => .ok "fore parameter error".toList)
  | some fore =>
    match parseInt options.Aft with
    | none => .ok (fun _ => .ok "aft parameter error".toList)
    | some aft =>
      let maskChar := options.MaskChar
      match parseBool options.KeepLength with
      | none => .ok (fun _ => .ok "keepLength parameter error".toList)
      | some keepLength =>
        match regexpMustCompile fore aft with
        | .error e => .error e
        | .ok re => .ok (maskingFunc re fore aft maskChar keepLength)

/-- Build the masking function and call it once. -/
def runMasking (options : AnoOption) (inString : GoString) : Except String GoString :=
  match buildMaskingFunc options with
  | .error e => .error e
  | .ok f => f inString

/-! ## Floating point

`float64`, `strconv.ParseFloat`, `strconv.FormatFloat`, the `%v` rendering
and the functions of package `math` are taken as a parameter: the
definitions below use them exactly where the source does and assume
nothing about them. Two instances of the parameter follow the embedded
functions: exact fractions and binary64. -/

/-- The floating-point operations the source uses. -/
structure FloatLib where
  /-- Type `float64`. -/
  F : Type
  /-- `strconv.ParseFloat(s, 64)`; `none` is a non-nil error. -/
  parseFloat : GoString → Option F
  /-- Conversion `float64(i)` of an integer. -/
  ofInt : Int → F
  add : F → F → F
  sub : F → F → F
  mul : F → F → F
  div : F → F → F
  /-- Comparison `x > y`. -/
  gt : F → F → Bool
  /-- `math.Pow`. -/
  pow : F → F → F
  /-- `math.Abs`. -/
  abs : F → F
  /-- `math.Round`. -/
  round : F → F
  /-- `math.Ceil`. -/
  ceil : F → F
  /-- `math.Floor`. -/
  floor : F → F
  /-- `strconv.FormatFloat(x, 'f', prec, 64)`. -/
  formatFloat : F → Int → GoString
  /-- Rendering of a `float64` by `%v`, also used by `fmt.Sprint`. -/
  fmtV : F → GoString

section Float
variable (fl : FloatLib)

/-- The three closures of `buildRoundingFunc`, which differ in `op` only. -/
def roundingFunc (op : fl.F → fl.F) (position : Int) (posPower : fl.F)
    (inString : GoString) : GoString :=
  match fl.parseFloat inString with
  | some value =>
    if position > 0 then
      fl.formatFloat (fl.div (op (fl.mul value posPower)) posPower) position
    else
      fl.formatFloat (fl.mul (op (fl.div value posPower)) posPower) 0
  | none => "parseFloat error:".toList ++ inString

/-- Go `buildRoundingFunc`. -/
def buildRoundingFunc (options : AnoOption) : GoString → GoString :=
  let position := options.Position
  let posPower := fl.pow (fl.ofInt 10) (fl.abs (fl.ofInt position))
  if options.Algorithm = "round".toList then roundingFunc fl fl.round position posPower
  else if options.Algorithm = "ceil".toList then roundingFunc fl fl.ceil position posPower
  else if options.Algorithm = "floor".toList then roundingFunc fl fl.floor position posPower
  else fun _ => "unknown Rounding algorithm".toList

/-- The loop of `buildRangingFunc` that fills `boundary`: iterations
`i, i+1, ..` while `i < binNum`, at most `fuel` of them. -/
def boundaryLoop (lowBound upBound : fl.F) (binNum : Int) : Nat → Int → List fl.F → List fl.F
  | 0, _, boundary => boundary
  | fuel + 1, i, boundary =>
    if i < binNum then
      boundaryLoop lowBound upBound binNum fuel (i + 1)
        (boundary ++ [fl.add lowBound
          (fl.mul (fl.div (fl.sub upBound lowBound) (fl.ofInt binNum)) (fl.ofInt i))])
    else boundary

/-- The boundary list of `buildRangingFunc`: the loop from `i = 0`, run to
its end (it makes `binNum` iterations, none when `binNum ≤ 0`), then
`upBound` appended. -/
def buildBoundary (lowBound upBound : fl.F) (binNum : Int) : List fl.F :=
  boundaryLoop fl lowBound upBound binNum binNum.toNat 0 [] ++ [upBound]

/-- The `range` loop of the ranging closure over the remaining boundaries. -/
def rangingLoop (value : fl.F) : List fl.F → GoString → GoString → GoString
  | [], _, last => last ++ " ~ ".toList
  | bound :: rest, before, _ =>
    if fl.gt bound value then before ++ " ~ ".toList ++ fl.fmtV bound
    else rangingLoop value rest (fl.fmtV bound) (fl.fmtV bound)

/-- The closure returned by `buildRangingFunc` once its parameters parsed. -/
def rangingFunc (boundary : List fl.F) (inString : GoString) : GoString :=
  match fl.parseFloat inString with
  | some value => rangingLoop fl value boundary [] []
  | none => "parseFloat error:".toList ++ inString

/-- Go `buildRangingFunc`. -/
def buildRangingFunc (options : AnoOption) : GoString → GoString :=
  match fl.parseFloat options.Lower with
  | none => fun _ => "lower parameter error".toList
  | some lowBound =>
    match fl.parseFloat options.Upper with
    | none => fun _ => "upper parameter error".toList
    | some upBound =>
      match parseInt options.Bin with
      | none => fun _ => "bin parameter error".toList
      | some binNum => rangingFunc fl (buildBoundary fl lowBound upBound binNum)

end Float

/-! ### An exact instance

Fractions with exact arithmetic. On inputs where every intermediate value
is an integer of magnitude below `10^6` (in particular exactly
representable in binary64, and rendered by `%v` in plain decimal notation)
this instance computes what binary64 computes; it is used to evaluate the
code at such inputs only. Decimal numerals `[sign] digits [. digits]` are
the only numerals it parses. -/

/-- A fraction `num / den`; `den = 0` stands for a value that is not a number. -/
structure Exact where
  num : Int
  den : Nat
deriving DecidableEq

namespace Exact

def ofInt (z : Int) : Exact := ⟨z, 1⟩

def add (a b : Exact) : Exact := ⟨a.num * b.den + b.num * a.den, a.den * b.den⟩

def sub (a b : Exact) : Exact := ⟨a.num * b.den - b.num * a.den, a.den * b.den⟩

def mul (a b : Exact) : Exact := ⟨a.num * b.num, a.den * b.den⟩

def div (a b : Exact) : Exact :=
  if b.num = 0 then ⟨0, 0⟩ else ⟨a.num * b.den * b.num.sign, a.den * b.num.natAbs⟩

def gt (a b : Exact) : Bool :=
  decide (a.den ≠ 0 ∧ b.den ≠ 0 ∧ a.num * b.den > b.num * a.den)

def abs (a : Exact) : Exact := ⟨a.num.natAbs, a.den⟩

def floor (a : Exact) : Exact := if a.den = 0 then a else ⟨a.num / a.den, 1⟩

def ceil (a : Exact) : Exact := if a.den = 0 then a else ⟨-((-a.num) / a.den), 1⟩

/-- Half away from zero, as `math.Round`. -/
def round (a : Exact) : Exact :=
  if a.den = 0 then a
  else ⟨a.num.sign * ((2 * a.num.natAbs + a.den) / (2 * a.den)), 1⟩

/-- Powers with a natural exponent. -/
def pow (a b : Exact) : Exact :=
  if b.den ≠ 0 ∧ 0 ≤ b.num ∧ (b.den : Int) ∣ b.num then
    ⟨a.num ^ (b.num / b.den).toNat, a.den ^ (b.num / b.den).toNat⟩
  else ⟨0, 0⟩

/-- Plain decimal rendering of integer values; other values have no
faithful rendering in this instance and are shown as a fraction. -/
def fmtV (a : Exact) : GoString :=
  if a.den ≠ 0 ∧ (a.den : Int) ∣ a.num ∧ (a.num / a.den).natAbs < 10 ^ 6 then fmtInt (a.num / a.den)
  else fmtInt a.num ++ '/' :: fmtInt a.den

/-- Fixed notation with `prec` digits after the point, ties to even. -/
def formatFloat (a : Exact) (prec : Int) : GoString :=
  if a.den = 0 then "NaN".toList
  else
    let p := prec.toNat
    let scaled := a.num.natAbs * 10 ^ p
    let q := scaled / a.den
    let r := scaled % a.den
    let n := if 2 * r > a.den ∨ (2 * r = a.den ∧ q % 2 = 1) then q + 1 else q
    let sign : GoString := if a.num < 0 then ['-'] else []
    let intPart := (Nat.repr (n / 10 ^ p)).toList
    let fracDigits := (Nat.repr (n % 10 ^ p)).toList
    if p = 0 then sign ++ intPart
    else sign ++ intPart ++ '.' :: (List.replicate (p - fracDigits.length) '0' ++ fracDigits)

/-- Numerals `digits [. digits]`, without sign. -/
def parseUnsigned (s : GoString) : Option Exact :=
  let intDigits := s.takeWhile (fun c => c != '.')
  let rest := s.dropWhile (fun c => c != '.')
  let fracDigits := rest.drop 1
  if intDigits = [] ∧ fracDigits = [] then none
  else match parseDigits (intDigits ++ fracDigits) 0 with
    | some n => some ⟨n, 10 ^ fracDigits.length⟩
    | none => none

def parseFloat (s : GoString) : Option Exact :=
  match s with
  | '+' :: rest => parseUnsigned rest
  | '-' :: rest => (parseUnsigned rest).map (fun a => ⟨-a.num, a.den⟩)
  | _ => parseUnsigned s

end Exact

/-- The exact instance of the floating-point parameter. -/
@[reducible] def exactLib : FloatLib where
  F := Exact
  parseFloat := Exact.parseFloat
  ofInt := Exact.ofInt
  add := Exact.add
  sub := Exact.sub
  mul := Exact.mul
  div := Exact.div
  gt := Exact.gt
  pow := Exact.pow
  abs := Exact.abs
  round := Exact.round
  ceil := Exact.ceil
  floor := Exact.floor
  formatFloat := Exact.formatFloat
  fmtV := Exact.fmtV

/-! ### A binary64 instance

IEEE-754 binary64 with round-to-nearest, ties to even: every finite value
is `(-1)^neg * m * 2^e` with `m < 2^53` and `-1074 ≤ e ≤ 971`, in the
unique form where `m ≥ 2^52` or `e = -1074`. Parsing, the conversion of
integers and the four operations are correctly rounded, as in Go.
`parseFloat` covers the decimal numerals `[sign] digits [. digits]
[e [sign] digits]` and the special values; the rendering `%v` is covered
for the special values and for integers of magnitude below `10^6`; `pow`
for a natural exponent and an exactly representable result. The source
reaches `math.Pow` with the base 10 and the absolute value of an integer. -/

/-- A binary64 value. -/
inductive F64 where
  | nan
  | inf (neg : Bool)
  | fin (neg : Bool) (m : Nat) (e : Int)
deriving DecidableEq

namespace F64

/-- Number of binary digits of `n`, with fuel; a number of more than 64
digits is cut by 64 digits at a time. -/
def bitLen : Nat → Nat → Nat
  | 0, _ => 0
  | fuel + 1, n =>
    if n = 0 then 0
    else if n < 2 ^ 64 then 1 + bitLen fuel (n / 2)
    else 64 + bitLen fuel (n / 2 ^ 64)

/-- The fraction `n / (d * 2^e)` as numerator and denominator. -/
def scaled (n d : Nat) (e : Int) : Nat × Nat :=
  if 0 ≤ e then (n, d * 2 ^ e.toNat) else (n * 2 ^ (-e).toNat, d)

/-- The binary64 value nearest to `n / d` (`d > 0`) with the given sign,
ties to even; a magnitude that rounds to `2^1024` or more is infinite. -/
def ofRat (neg : Bool) (n d : Nat) : F64 :=
  if n = 0 then .fin neg 0 (-1074)
  else
    let e0 : Int := (bitLen n n : Int) - (bitLen d d : Int) - 53
    let s0 := scaled n d e0
    let e1 := if s0.1 / s0.2 ≥ 2 ^ 53 then e0 + 1 else e0
    let e := if e1 < -1074 then -1074 else e1
    let s := scaled n d e
    let q := s.1 / s.2
    let r := s.1 % s.2
    let m := if 2 * r > s.2 ∨ (2 * r = s.2 ∧ q % 2 = 1) then q + 1 else q
    let e2 := if m = 2 ^ 53 then e + 1 else e
    let m2 := if m = 2 ^ 53 then 2 ^ 52 else m
    if e2 > 971 then .inf neg else .fin neg m2 e2

/-- The value `m * 2^e` rounded, with the given sign. -/
def ofScaled (neg : Bool) (m : Nat) (e : Int) : F64 :=
  if 0 ≤ e then ofRat neg (m * 2 ^ e.toNat) 1 else ofRat neg m (2 ^ (-e).toNat)

/-- The integer `(-1)^neg * m`. -/
def signed (neg : Bool) (m : Nat) : Int := if neg then -(m : Int) else (m : Int)

def neg : F64 → F64
  | .nan => .nan
  | .inf n => .inf (!n)
  | .fin n m e => .fin (!n) m e

def add : F64 → F64 → F64
  | .nan, _ => .nan
  | _, .nan => .nan
  | .inf a, .inf b => if a = b then .inf a else .nan
  | .inf a, .fin _ _ _ => .inf a
  | .fin _ _ _, .inf b => .inf b
  | .fin na ma ea, .fin nb mb eb =>
    let e := if ea ≤ eb then ea else eb
    let s : Int := signed na (ma * 2 ^ (ea - e).toNat) + signed nb (mb * 2 ^ (eb - e).toNat)
    if s = 0 then .fin (na && nb) 0 (-1074) else ofScaled (decide (s < 0)) s.natAbs e

def sub (a b : F64) : F64 := add a (neg b)

def mul : F64 → F64 → F64
  | .nan, _ => .nan
  | _, .nan => .nan
  | .inf a, .inf b => .inf (a != b)
  | .inf a, .fin nb mb _ => if mb = 0 then .nan else .inf (a != nb)
  | .fin na ma _, .inf b => if ma = 0 then .nan else .inf (na != b)
  | .fin na ma ea, .fin nb mb eb =>
    if ma * mb = 0 then .fin (na != nb) 0 (-1074) else ofScaled (na != nb) (ma * mb) (ea + eb)

def div : F64 → F64 → F64
  | .nan, _ => .nan
  | _, .nan => .nan
  | .inf _, .inf _ => .nan
  | .inf a, .fin nb _ _ => .inf (a != nb)
  | .fin na _ _, .inf b => .fin (na != b) 0 (-1074)
  | .fin na ma ea, .fin nb mb eb =>
    if mb = 0 then (if ma = 0 then .nan else .inf (na != nb))
    else if ma = 0 then .fin (na != nb) 0 (-1074)
    else if 0 ≤ ea - eb then ofRat (na != nb) (ma * 2 ^ (ea - eb).toNat) mb
    else ofRat (na != nb) ma (mb * 2 ^ (eb - ea).toNat)

def gt : F64 → F64 → Bool
  | .nan, _ => false
  | _, .nan => false
  | .inf a, .inf b => !a && b
  | .inf a, .fin _ _ _ => !a
  | .fin _ _ _, .inf b => b
  | .fin na ma ea, .fin nb mb eb =>
    let e := if ea ≤ eb then ea else eb
    decide (signed na (ma * 2 ^ (ea - e).toNat) > signed nb (mb * 2 ^ (eb - e).toNat))

/-- The comparison `<=` of binary64: false when an argument is NaN. -/
def le : F64 → F64 → Bool
  | .nan, _ => false
  | _, .nan => false
  | .inf a, .inf b => a || !b
  | .inf a, .fin _ _ _ => a
  | .fin _ _ _, .inf b => !b
  | .fin na ma ea, .fin nb mb eb =>
    let e := if ea ≤ eb then ea else eb
    decide (signed na (ma * 2 ^ (ea - e).toNat) ≤ signed nb (mb * 2 ^ (eb - e).toNat))

def ofInt (z : Int) : F64 := ofRat (decide (z < 0)) z.natAbs 1

def abs : F64 → F64
  | .nan => .nan
  | .inf _ => .inf false
  | .fin _ m e => .fin false m e

/-- Rounding to an integer: the magnitude `m * 2^e` is replaced by what
`pick q r d` gives for its integer part `q` and the remainder `r` of the
division by `d = 2^(-e)`; the sign is kept, also on a zero result. -/
def toIntegral (pick : Bool → Nat → Nat → Nat → Nat) : F64 → F64
  | .nan => .nan
  | .inf n => .inf n
  | .fin n m e =>
    if 0 ≤ e then .fin n m e
    else ofRat n (pick n (m / 2 ^ (-e).toNat) (m % 2 ^ (-e).toNat) (2 ^ (-e).toNat)) 1

def floor : F64 → F64 :=
  toIntegral (fun n q r _ => if n && decide (r > 0) then q + 1 else q)

def ceil : F64 → F64 :=
  toIntegral (fun n q r _ => if !n && decide (r > 0) then q + 1 else q)

/-- Half away from zero, as `math.Round`. -/
def round : F64 → F64 :=
  toIntegral (fun _ q r d => if 2 * r ≥ d then q + 1 else q)

/-- Whether a finite value is an integer, and which magnitude. -/
def natValue? : F64 → Option Nat
  | .fin _ m e =>
    if 0 ≤ e then some (m * 2 ^ e.toNat)
    else if m % 2 ^ (-e).toNat = 0 then some (m / 2 ^ (-e).toNat) else none
  | _ => none

/-- Powers of a finite base with a natural exponent, rounded once; `1` for
the exponent zero. Other arguments are not modelled and give NaN. -/
def pow (x y : F64) : F64 :=
  match y with
  | .fin false my ey =>
    match natValue? (.fin false my ey), x with
    | some 0, _ => ofInt 1
    | some k, .fin n m e => ofScaled (n && decide (k % 2 = 1)) (m ^ k) (e * k)
    | _, _ => .nan
  | _ => .nan

/-- Fixed notation with `prec` digits after the point: the exact decimal
value rounded to nearest, ties to even. -/
def formatFloat (x : F64) (prec : Int) : GoString :=
  match x with
  | .nan => "NaN".toList
  | .inf n => if n then "-Inf".toList else "+Inf".toList
  | .fin n m e =>
    let p := prec.toNat
    let s := scaled (m * 10 ^ p) 1 (-e)
    let q := s.1 / s.2
    let r := s.1 % s.2
    let k := if 2 * r > s.2 ∨ (2 * r = s.2 ∧ q % 2 = 1) then q + 1 else q
    let sign : GoString := if n then ['-'] else []
    let intPart := (Nat.repr (k / 10 ^ p)).toList
    let fracDigits := (Nat.repr (k % 10 ^ p)).toList
    if p = 0 then sign ++ intPart
    else sign ++ intPart ++ '.' :: (List.replicate (p - fracDigits.length) '0' ++ fracDigits)

/-- Rendering by `%v`: the special values, and plain decimal notation for
integers of magnitude below `10^6`; any other value is shown in the form
of the verb `%b`, mantissa and binary exponent, which is not what `%v`
prints. -/
def fmtV (x : F64) : GoString :=
  match x with
  | .nan => "NaN".toList
  | .inf n => if n then "-Inf".toList else "+Inf".toList
  | .fin n m e =>
    match natValue? (.fin n m e) with
    | some k =>
      if k < 10 ^ 6 then (if n then ['-'] else []) ++ (Nat.repr k).toList
      else (if n then ['-'] else []) ++ (Nat.repr m).toList ++ 'p' :: fmtInt e
    | none => (if n then ['-'] else []) ++ (Nat.repr m).toList ++ 'p' :: fmtInt e

/-- The exponent part of a decimal numeral: an optional sign and digits. -/
def parseExponent (s : GoString) : Option Int :=
  match s with
  | '+' :: t => if t = [] then none else (parseDigits t 0).map (fun n => (n : Int))
  | '-' :: t => if t = [] then none else (parseDigits t 0).map (fun n => -(n : Int))
  | t => if t = [] then none else (parseDigits t 0).map (fun n => (n : Int))

/-- The parts of a decimal numeral: the digits before the point, the
digits after it, and the exponent. -/
def splitNumeral (s : GoString) : Option (GoString × GoString × Int) :=
  let intDigits : GoString := s.takeWhile (fun c => c.isDigit)
  let rest1 : GoString := s.dropWhile (fun c => c.isDigit)
  let afterPoint : GoString := match rest1 with
    | '.' :: t => t
    | t => t
  let fracDigits : GoString := afterPoint.takeWhile (fun c => c.isDigit)
  let rest2 : GoString := afterPoint.dropWhile (fun c => c.isDigit)
  if intDigits = [] ∧ fracDigits = [] then none
  else match rest2 with
    | [] => some (intDigits, fracDigits, 0)
    | c :: expPart =>
      if c = 'e' ∨ c = 'E' then (parseExponent expPart).map (fun x => (intDigits, fracDigits, x))
      else none

/-- Go `strconv.ParseFloat(s, 64)` on decimal numerals and special values;
a value that rounds to infinity is a range error. -/
def parseFloat (s : GoString) : Option F64 :=
  let neg := decide (s.head? = some '-')
  let body := match s with
    | '+' :: t => t
    | '-' :: t => t
    | t => t
  let lower := body.map Char.toLower
  if lower = "inf".toList ∨ lower = "infinity".toList then some (.inf neg)
  else if s.map Char.toLower = "nan".toList then some .nan
  else match splitNumeral body with
    | none => none
    | some (intDigits, fracDigits, x) =>
      match parseDigits (intDigits ++ fracDigits) 0 with
      | some d =>
        let value := if 0 ≤ x - fracDigits.length
          then ofRat neg (d * 10 ^ (x - fracDigits.length).toNat) 1
          else ofRat neg d (10 ^ ((fracDigits.length : Int) - x).toNat)
        match value with
        | .inf _ => none
        | v => some v
      | none => none

end F64

/-- The binary64 instance of the floating-point parameter. -/
@[reducible] def f64Lib : FloatLib where
  F := F64
  parseFloat := F64.parseFloat
  ofInt := F64.ofInt
  add := F64.add
  sub := F64.sub
  mul := F64.mul
  div := F64.div
  gt := F64.gt
  pow := F64.pow
  abs := F64.abs
  round := F64.round
  ceil := F64.ceil
  floor := F64.floor
  formatFloat := F64.formatFloat
  fmtV := F64.fmtV

/-! ## Digests

The digest algorithms of `crypto/sha256`, `crypto/md5` and `crypto/hmac`
are a parameter. A `hash.Hash` value is modelled by the data written to it
since its last reset, together with the function that `Sum` applies. -/

/-- The digest functions the source uses, as functions of the whole message. -/
structure CryptoLib where
  sha256 : GoString → List (Fin 256)
  md5 : GoString → List (Fin 256)
  /-- HMAC over SHA-256: key, then message. -/
  hmacSha256 : GoString → GoString → List (Fin 256)
  /-- HMAC over MD5: key, then message. -/
  hmacMd5 : GoString → GoString → List (Fin 256)

/-- A `hash.Hash` object: its algorithm (already keyed for a MAC) and the
bytes written since creation or the last `Reset`. -/
structure Hash where
  digest : GoString → List (Fin 256)
  written : GoString

/-- Method `Write`. -/
def Hash.Write (h : Hash) (p : GoString) : Hash := { h with written := h.written ++ p }

/-- Method `Sum(nil)`: the digest of what was written; the state is unchanged. -/
def Hash.Sum (h : Hash) : List (Fin 256) := h.digest h.written

/-- Method `Reset`. -/
def Hash.Reset (h : Hash) : Hash := { h with written := [] }

/-- The digit table of `encoding/hex`. -/
def hextable : GoString := "0123456789abcdef".toList

/-- Go `hex.EncodeToString`: two digits per byte, high nibble first. -/
def hexEncodeToString (src : List (Fin 256)) : GoString :=
  src.flatMap (fun b => [hextable.getD (b.val / 16) '0', hextable.getD (b.val % 16) '0'])

/-- A bound cell function `func(string) string`. A closure that captures a
mutable `hash.Hash` carries it as state; every other closure is a pure
function, which may panic. -/
inductive CellFunc where
  | pure (f : GoString → Except String GoString)
  | hashing (mac : Hash)

/-- One call of a cell function: its result and the closure afterwards.
For the hashing closure: `mac.Write`, then the return value is computed
from `mac.Sum(nil)`, then the deferred `mac.Reset()` runs. -/
def CellFunc.call : CellFunc → GoString → Except String GoString × CellFunc
  | .pure f, inString => (f inString, .pure f)
  | .hashing mac, inString =>
    let mac1 := mac.Write inString
    let out := hexEncodeToString mac1.Sum
    (.ok out, .hashing mac1.Reset)

/-- Successive calls of the same closure, in order. -/
def CellFunc.callSeq : CellFunc → List GoString → List (Except String GoString)
  | _, [] => []
  | f, s :: rest => (f.call s).1 :: CellFunc.callSeq (f.call s).2 rest

section Bind
variable (fl : FloatLib) (cr : CryptoLib)

/-- Go `buildEncryptingFunc`. -/
def buildEncryptingFunc (options : AnoOption) : CellFunc :=
  if options.Algorithm = "hmac".toList then
    if options.Digest = "sha256".toList then
      .hashing { digest := cr.hmacSha256 options.Key, written := [] }
    else if options.Digest = "md5".toList then
      .hashing { digest := cr.hmacMd5 options.Key, written := [] }
    else
      .hashing { digest := cr.hmacSha256 options.Key, written := [] }
  else if options.Algorithm = "hash(sha256)".toList then
    .hashing { digest := cr.sha256, written := [] }
  else if options.Algorithm = "hash(md5)".toList then
    .hashing { digest := cr.md5, written := [] }
  else .pure (fun _ => .ok "unknown Encrypting algorithm".toList)

/-- Closure `passAsIs` of `procData`. -/
def passAsIs : CellFunc := .pure (fun inString => .ok inString)

/-- Closure `dropAll` of `procData`. -/
def dropAll : CellFunc := .pure (fun _ => .ok [])

/-- The descriptor `map[string]Option`, as its lookup. -/
abbrev OptionsMap := GoString → Option FieldOption

/-- The body of the binding loop of `procData` for one column `key`: the
function appended to `funcList`, or the panic of a builder. -/
def bindColumn (options : OptionsMap) (key : GoString) : Except String CellFunc :=
  match options key with
  | some option =>
    if option.Method = "encryption".toList then
      .ok (buildEncryptingFunc cr option.Options)
    else if option.Method = "rounding".toList then
      .ok (.pure (fun s => .ok (buildRoundingFunc fl option.Options s)))
    else if option.Method = "data_range".toList then
      .ok (.pure (fun s => .ok (buildRangingFunc fl option.Options s)))
    else if option.Method = "blank_impute".toList then
      (buildMaskingFunc option.Options).map CellFunc.pure
    else if option.Method = "pii_reduction".toList then
      (buildMaskingFunc option.Options).map CellFunc.pure
    else if option.Method = "non".toList then
      .ok passAsIs
    else
      .ok dropAll
  | none => .ok passAsIs

/-- The binding loop of `procData` over the remaining columns. -/
def bindLoop (options : OptionsMap) : List GoString → List CellFunc → Except String (List CellFunc)
  | [], funcList => .ok funcList
  | key :: rest, funcList =>
    match bindColumn fl cr options key with
    | .error e => .error e
    | .ok f => bindLoop options rest (funcList ++ [f])

/-- The function vector `funcList` that `procData` builds from `headerInfo`. -/
def buildFuncList (options : OptionsMap) (headerInfo : List GoString) :
    Except String (List CellFunc) :=
  bindLoop fl cr options headerInfo []

end Bind

/-! ## CSV output -/

/-- Go `strings.ContainsAny(v, ", ")`. -/
def containsCommaOrSpace (v : GoString) : Bool := v.any (fun c => c == ',' || c == ' ')

/-- The inner loop of `SaveData` over the fields from index `i` on. -/
def fieldLoop (numFields : Int) : List GoString → Int → GoString → GoString
  | [], _, buf => buf
  | v :: rest, i, buf =>
    let buf1 := if containsCommaOrSpace v then buf ++ ('"' :: v ++ ['"']) else buf ++ v
    let buf2 := if i < numFields - 1 then buf1 ++ ", ".toList else buf1
    fieldLoop numFields rest (i + 1) buf2

/-- The bytes handed to one `res.Write`: a record and its terminator. -/
def writeRecord (numFields : Int) (x : List GoString) : GoString :=
  fieldLoop numFields x 0 [] ++ "\r\n".toList

/-- Go `SaveData`: the sequence of chunks passed to `res.Write`, for the
rows received from `pcdDataQueue` until it is closed. -/
def SaveData (header : List GoString) (rows : List (List GoString)) : List GoString :=
  let numFields : Int := header.length
  writeRecord numFields header :: rows.map (writeRecord numFields)

/-- A toy digest parameter (each digest is the list of code points modulo
256), used only to instantiate the parameter at concrete inputs. -/
def toyCrypto : CryptoLib where
  sha256 := fun m => m.map (fun c => ⟨c.toNat % 256, Nat.mod_lt _ (by decide)⟩)
  md5 := fun m => m.map (fun c => ⟨c.toNat % 256, Nat.mod_lt _ (by decide)⟩)
  hmacSha256 := fun k m => (k ++ m).map (fun c => ⟨c.toNat % 256, Nat.mod_lt _ (by decide)⟩)
  hmacMd5 := fun k m => (k ++ m).map (fun c => ⟨c.toNat % 256, Nat.mod_lt _ (by decide)⟩)

/-! ## The query planner (`controllers/query/query.go`)

The descriptor is a decoded JSON document in the source; here it is the
typed record that the type assertions of `CreateQuerySyntax` expect, so a
descriptor of the wrong shape (where an assertion panics) is outside the
model. The attributes are listed in the order in which the `range` loop
visits them. -/

/-- One entry of `attributes`. -/
structure AttrDetail (F : Type) where
  isExport : Bool
  isPii : Bool
  isConsentSkip : Bool
  consentDatabase : GoString
  consentTable : GoString
  legalDuration : F
deriving DecidableEq

/-- One entry of `conditions`. -/
structure Condition where
  /-- Key `attribute` of the source (a reserved word here). -/
  attributeName : GoString
  operator : GoString
  value : GoString
  fixed : Bool
  connection : GoString
deriving DecidableEq

/-- The part of `conn` that `CreateQuerySyntax` reads. -/
structure ConnInfo where
  database : GoString
  table : GoString
deriving DecidableEq

/-- The query descriptor `options`. -/
structure QueryOptions (F : Type) where
  conn : ConnInfo
  attributes : List (GoString × AttrDetail F)
  conditions : List Condition

/-- The variables the attribute loop of `CreateQuerySyntax` updates. -/
structure AttrState where
  consentTable : GoString
  attributesToExtract : List GoString
  joinSyntax : GoString
deriving DecidableEq

section Query
variable (fl : FloatLib)

/-- One iteration of the attribute loop of `CreateQuerySyntax`. -/
def attributeStep (baseTable : GoString) (st : AttrState) (key : GoString)
    (detail : AttrDetail fl.F) : AttrState :=
  if detail.isExport then
    let st1 := { st with attributesToExtract := st.attributesToExtract ++ [baseTable ++ ".".toList ++ key] }
    if detail.isPii && !detail.isConsentSkip then
      let consentTable := detail.consentDatabase ++ ".".toList ++ detail.consentTable
      let join1 := if st1.joinSyntax ≠ [] then st1.joinSyntax ++ " AND ".toList else st1.joinSyntax
      { st1 with
        consentTable := consentTable
        joinSyntax := join1 ++ (consentTable ++ ".".toList ++ key
          ++ "=1 AND ADD_MONTHS(TO_DATE(".toList ++ baseTable ++ ".LAST_ACCESSED), ".toList
          ++ fl.formatFloat detail.legalDuration 0 ++ ") > NOW()".toList) }
    else st1
  else st

/-- The attribute loop of `CreateQuerySyntax`. -/
def attributeLoop (baseTable : GoString) :
    List (GoString × AttrDetail fl.F) → AttrState → AttrState
  | [], st => st
  | (key, detail) :: rest, st => attributeLoop baseTable rest (attributeStep fl baseTable st key detail)

/-- The text one condition appends to `conditionSyntax` after the
connective, given the `value` to render. -/
def conditionText (baseTable : GoString) (condition : Condition) (value : GoString) : GoString :=
  let operator := condition.operator
  let lhs := " ".toList ++ baseTable ++ ".".toList ++ condition.attributeName ++ " ".toList ++ operator
  if operator = "=".toList ∨ operator = "!=".toList then
    if value = "?".toList then lhs ++ " ?".toList
    else if (fl.parseFloat condition.value).isSome then lhs ++ " ".toList ++ value
    else lhs ++ " \x27".toList ++ value ++ "\x27".toList
  else if operator = "like".toList ∨ operator = "not like".toList then
    if value = "?".toList then lhs ++ " \x27%?%\x27".toList
    else lhs ++ " \x27%".toList ++ value ++ "%\x27".toList
  else
    if value = "?".toList then lhs ++ " ?".toList
    else lhs ++ " ".toList ++ value

/-- The condition loop of `CreateQuerySyntax` from index `idx` on. A
non-nil `params` that runs out makes `params[paramsIndex]` panic. -/
def conditionLoop (baseTable : GoString) (params : Option (List GoString)) :
    List Condition → Nat → Nat → GoString → Except String GoString
  | [], _, _, conditionSyntax => .ok conditionSyntax
  | condition :: rest, idx, paramsIndex, conditionSyntax =>
    let syntax1 := if idx > 0 then conditionSyntax ++ " ".toList ++ condition.connection
      else conditionSyntax
    if !condition.fixed then
      match params with
      | none =>
        conditionLoop baseTable params rest (idx + 1) paramsIndex
          (syntax1 ++ conditionText fl baseTable condition "?".toList)
      | some ps =>
        match ps.get? paramsIndex with
        | none => .error "index out of range"
        | some value =>
          conditionLoop baseTable params rest (idx + 1) (paramsIndex + 1)
            (syntax1 ++ conditionText fl baseTable condition value)
    else
      conditionLoop baseTable params rest (idx + 1) paramsIndex
        (syntax1 ++ conditionText fl baseTable condition condition.value)

/-- The loop of `CreateQuerySyntax` that writes the projection, from index `i` on. -/
def projectionLoop (attributesToExtract : List GoString) : List GoString → Int → GoString → GoString
  | [], _, buffer => buffer
  | a :: rest, i, buffer =>
    let buffer1 := buffer ++ a
    let buffer2 := if i < (attributesToExtract.length : Int) - 1 then buffer1 ++ ", ".toList else buffer1
    projectionLoop attributesToExtract rest (i + 1) buffer2

/-- The last part of `CreateQuerySyntax`: the statement written to `buffer`. -/
def assembleQuery (baseTable : GoString) (st : AttrState) (conditionSyntax : GoString) : GoString :=
  let b1 := projectionLoop st.attributesToExtract st.attributesToExtract 0 "SELECT ".toList
  let b2 := b1 ++ " FROM ".toList ++ baseTable
  let b3 := if st.consentTable ≠ [] then
      b2 ++ " INNER JOIN ".toList ++ st.consentTable ++ " ON ".toList ++ baseTable
        ++ ".PROFILES_ID=".toList ++ st.consentTable ++ ".PROFILES_ID".toList
    else b2
  if st.joinSyntax ≠ [] ∨ conditionSyntax ≠ [] then
    let b4 := b3 ++ " WHERE ".toList
    let b5 := if st.joinSyntax ≠ [] then b4 ++ st.joinSyntax ++ " AND".toList else b4
    if conditionSyntax ≠ [] then b5 ++ conditionSyntax else b5
  else b3

/-- Go `CreateQuerySyntax`: the statement and the error value, which is
always nil (`none`); the outer `Except` is a panic. -/
def CreateQuerySyntax (options : QueryOptions fl.F) (params : Option (List GoString)) :
    Except String (GoString × Option GoString) :=
  let baseTable := options.conn.database ++ ".".toList ++ options.conn.table
  let st := attributeLoop fl baseTable options.attributes
    { consentTable := [], attributesToExtract := [], joinSyntax := [] }
  match conditionLoop fl baseTable params options.conditions 0 0 [] with
  | .error e => .error e
  | .ok conditionSyntax => .ok (assembleQuery baseTable st conditionSyntax, none)

end Query

/-- The scan of Go `strings.Index`: the byte offset, counted from `off`, of
the first occurrence of `sep`, or `-1`. -/
def indexLoop (sep : GoString) : GoString → Nat → Int
  | [], off => if sep = [] then (off : Int) else -1
  | c :: cs, off =>
    if sep.isPrefixOf (c :: cs) then (off : Int) else indexLoop sep cs (off + c.utf8Size)

/-- Go `strings.Index(s, sep)`. -/
def stringsIndex (s sep : GoString) : Int := indexLoop sep s 0

/-- The statement `modifiedQuery` that `GetDataSize` builds from `query`
and sends to the database; the slice expression `query[subsequentIndex:]`
may panic. -/
def modifiedQuery (query : GoString) : Except String GoString :=
  let subsequentIndex := stringsIndex query "FROM".toList + 4
  match goSlice query subsequentIndex (len query) with
  | .error e => .error e
  | .ok rest => .ok ("SELECT COUNT(*) FROM".toList ++ rest)

/-! ## The supervisor (`handlers/request/request.go`) and the readers -/

/-- The worker count `nProc` of `ExportRequest`, in `uint64` arithmetic,
from `conn.totalSize` and `conn.blockSize`. -/
def calcNProc (totalSize blockSize : Nat) : Except String Nat :=
  if blockSize = 0 then .error "integer divide by zero"
  else
    let nProc := totalSize / blockSize
    if totalSize % blockSize > 0 then .ok ((nProc + 1) % 2 ^ 64) else .ok nProc

/-- The loop of `ExecuteQuery`: the arguments `(blockSize, i * blockSize)`,
the product in `uint64` arithmetic, of the `parallelProcess` calls for
`i = 0 .. nProc - 1`, which become `LIMIT` and `OFFSET` of the queries. -/
def queryWindows (blockSize nProc : Nat) : List (Nat × Nat) :=
  (List.range nProc).map (fun i => (blockSize, (i * blockSize) % 2 ^ 64))

/-! ## The transformer worker -/

/-- The inner loop of the worker of `procData` over the cells from index
`i` on: `output = append(output, funcList[i](value))`. A closure with
captured state is left in `funcList` as the call leaves it. -/
def rowLoop : List GoString → Nat → List CellFunc → List GoString →
    Except String (List GoString × List CellFunc)
  | [], _, funcList, output => .ok (output, funcList)
  | value :: rest, i, funcList, output =>
    match funcList.get? i with
    | none => .error "index out of range"
    | some f =>
      match f.call value with
      | (.error e, _) => .error e
      | (.ok cell, f1) => rowLoop rest (i + 1) (funcList.set i f1) (output ++ [cell])

/-- The receive loop of the worker of `procData`: the rows sent to `oChan`
for the rows `v` received from `iChan`, in order. -/
def workerLoop : List (List GoString) → List CellFunc → List (List GoString) →
    Except String (List (List GoString))
  | [], _, sent => .ok sent
  | v :: rest, funcList, sent =>
    match rowLoop v 0 funcList [] with
    | .error e => .error e
    | .ok (output, funcList1) => workerLoop rest funcList1 (sent ++ [output])

/-- Go `procData`, one worker: the function vector is built, then every
row received is transformed and sent. -/
def procData (fl : FloatLib) (cr : CryptoLib) (options : OptionsMap) (headerInfo : List GoString)
    (rows : List (List GoString)) : Except String (List (List GoString)) :=
  match buildFuncList fl cr options headerInfo with
  | .error e => .error e
  | .ok funcList => workerLoop rows funcList []

/-! ## Specification-side definitions and sample data -/

/-- The options of scenario S5: fore 2, aft 2, mask character `*`, keep length. -/
def maskS5 : AnoOption :=
  { Fore := "2".toList, Aft := "2".toList, MaskChar := "*".toList, KeepLength := "true".toList }

/-- Boundary `i` as the loop of `buildRangingFunc` computes it. -/
def boundaryAt (fl : FloatLib) (lowBound upBound : fl.F) (binNum : Int) (i : Nat) : fl.F :=
  fl.add lowBound (fl.mul (fl.div (fl.sub upBound lowBound) (fl.ofInt binNum)) (fl.ofInt i))

/-- A descriptor with three columns: `id` is passed, `name` is masked,
`note` carries an unknown method. -/
def sampleOptions : OptionsMap := fun key =>
  if key = "id".toList then some { Method := "non".toList }
  else if key = "name".toList then some { Method := "pii_reduction".toList, Options := maskS5 }
  else if key = "note".toList then some { Method := "remove".toList }
  else none

/-- The header used with `sampleOptions`; `age` is absent from the descriptor. -/
def sampleHeader : List GoString := ["id".toList, "name".toList, "note".toList, "age".toList]

/-- The options of scenario S4: lower 0, upper 100, bin 4. -/
def rangeS4 : AnoOption := { Lower := "0".toList, Upper := "100".toList, Bin := "4".toList }

/-- The digest the specification assigns to an encryption descriptor: the
keyed MAC for `hmac` (over MD5 when the digest is `md5`, over SHA-256
otherwise), the plain hash for `hash(sha256)` and `hash(md5)`. -/
def expectedDigest (cr : CryptoLib) (options : AnoOption) : GoString → List (Fin 256) :=
  if options.Algorithm = "hmac".toList then
    if options.Digest = "md5".toList then cr.hmacMd5 options.Key else cr.hmacSha256 options.Key
  else if options.Algorithm = "hash(sha256)".toList then cr.sha256
  else cr.md5

/-- A field as the specification writes it: wrapped in double quotes iff it
contains a comma or a space. -/
def csvField (v : GoString) : GoString :=
  if containsCommaOrSpace v then '"' :: v ++ ['"'] else v

/-- A record as the specification writes it: the fields joined by a comma
and a space, then the terminator. -/
def csvRecord (x : List GoString) : GoString :=
  ", ".toList.intercalate (x.map csvField) ++ "\r\n".toList

/-- An exported column that is not personal data. -/
def plainAttr : AttrDetail Exact :=
  { isExport := true
    isPii := false
    isConsentSkip := false
    consentDatabase := []
    consentTable := []
    legalDuration := Exact.ofInt 0 }

/-- An exported column of personal data under the consent table `db.CT`,
with a legal duration of 12 months. -/
def consentAttr (db : GoString) : AttrDetail Exact :=
  { isExport := true
    isPii := true
    isConsentSkip := false
    consentDatabase := db
    consentTable := "CT".toList
    legalDuration := Exact.ofInt 12 }

/-- The query descriptor of the examples: three exported columns, of
which `EMAIL` is personal data under consent, one column that is not
exported, and two conditions. -/
def sampleQuery : QueryOptions Exact :=
  { conn := { database := "DB".toList, table := "T".toList }
    attributes :=
      [ ("ID".toList, plainAttr),
        ("EMAIL".toList, consentAttr "CDB".toList),
        ("SECRET".toList, { consentAttr "CDB".toList with isExport := false }),
        ("AGE".toList, plainAttr) ]
    conditions :=
      [ { attributeName := "AGE".toList, operator := ">=".toList, value := "20".toList,
          fixed := true, connection := [] },
        { attributeName := "ID".toList, operator := "=".toList, value := "x".toList,
          fixed := false, connection := "AND".toList } ] }

/-- The base table `<database>.<table>` of a descriptor. -/
def baseTableOf {F : Type} (options : QueryOptions F) : GoString :=
  options.conn.database ++ ".".toList ++ options.conn.table

/-- Whether an attribute is exported personal data whose consent is not skipped. -/
def needsConsent {F : Type} (a : GoString × AttrDetail F) : Bool :=
  a.2.isExport && (a.2.isPii && !a.2.isConsentSkip)

/-- The projection the specification describes: the exported attributes,
in iteration order, each as `<database>.<table>.<column>`, separated by a
comma and a space. -/
def projectionOf {F : Type} (options : QueryOptions F) : GoString :=
  ", ".toList.intercalate
    ((options.attributes.filter (fun a => a.2.isExport)).map
      (fun a => options.conn.database ++ ".".toList ++ options.conn.table ++ ".".toList ++ a.1))

/-- The consent condition of one attribute, as the specification writes it
(the code writes `=1` without blanks). -/
def consentCondition (fl : FloatLib) (baseTable : GoString) (a : GoString × AttrDetail fl.F) :
    GoString :=
  a.2.consentDatabase ++ ".".toList ++ a.2.consentTable ++ ".".toList ++ a.1
    ++ "=1 AND ADD_MONTHS(TO_DATE(".toList ++ baseTable ++ ".LAST_ACCESSED), ".toList
    ++ fl.formatFloat a.2.legalDuration 0 ++ ") > NOW()".toList

/-- The consent clause: the consent conditions of the attributes that need
consent, in iteration order, joined by `AND`. -/
def consentClause (fl : FloatLib) (options : QueryOptions fl.F) : GoString :=
  " AND ".toList.intercalate
    ((options.attributes.filter needsConsent).map (consentCondition fl (baseTableOf options)))

/-- The user-condition clause without supplied parameters, from the
condition of index `idx` on: each condition rendered by `conditionText`,
with the placeholder for a non-fixed one, and from index 1 on preceded by
a blank and its connective. -/
def conditionClauseFrom (fl : FloatLib) (baseTable : GoString) : Nat → List Condition → GoString
  | _, [] => []
  | idx, c :: rest =>
    (if idx > 0 then " ".toList ++ c.connection else [])
      ++ conditionText fl baseTable c (if c.fixed then c.value else "?".toList)
      ++ conditionClauseFrom fl baseTable (idx + 1) rest

/-- The consent table named by the join: that of the last attribute, in
iteration order, that needs consent. -/
def lastConsentTable {F : Type} (options : QueryOptions F) : Option GoString :=
  ((options.attributes.filter needsConsent).map
    (fun a => a.2.consentDatabase ++ ".".toList ++ a.2.consentTable)).getLast?

/-- The statement `CreateQuerySyntax` assembles when no parameters are
supplied, written out: projection, base table, the join with the last
consent table, and the `WHERE` part. -/
def assembledStatement (fl : FloatLib) (options : QueryOptions fl.F) : GoString :=
  "SELECT ".toList ++ projectionOf options ++ " FROM ".toList ++ baseTableOf options
    ++ (match lastConsentTable options with
        | some t => " INNER JOIN ".toList ++ t ++ " ON ".toList ++ baseTableOf options
            ++ ".PROFILES_ID=".toList ++ t ++ ".PROFILES_ID".toList
        | none => [])
    ++ (if consentClause fl options ≠ [] ∨ options.conditions ≠ [] then
          " WHERE ".toList
            ++ (if consentClause fl options ≠ [] then consentClause fl options ++ " AND".toList
                else [])
            ++ conditionClauseFrom fl (baseTableOf options) 0 options.conditions
        else [])

/-- A descriptor whose two personal-data columns declare the distinct
consent tables `CDB1.CT` and `CDB2.CT`. -/
def twoConsentQuery : QueryOptions Exact :=
  { conn := { database := "DB".toList, table := "T".toList }
    attributes := [("EMAIL".toList, consentAttr "CDB1".toList),
      ("PHONE".toList, consentAttr "CDB2".toList)]
    conditions := [] }

/-- A descriptor with one fixed condition whose value is a question mark. -/
def questionQuery : QueryOptions Exact :=
  { conn := { database := "DB".toList, table := "T".toList }
    attributes := [("ID".toList, plainAttr)]
    conditions :=
      [ { attributeName := "NAME".toList, operator := "=".toList, value := "?".toList,
          fixed := true, connection := [] } ] }

/-- A descriptor that exports a column whose name contains `FROM`. -/
def fromQuery : QueryOptions Exact :=
  { conn := { database := "DB".toList, table := "T".toList }
    attributes := [("FROM_DATE".toList, plainAttr)]
    conditions := [] }

/-- A descriptor with one column under consent and no condition. -/
def consentOnlyQuery : QueryOptions Exact :=
  { conn := { database := "DB".toList, table := "T".toList }
    attributes := [("EMAIL".toList, consentAttr "CDB".toList)]
    conditions := [] }

/-- The row the specification describes: function vector entry `i` applied
to cell `i`, for the cells in order; a panic of a function ends it. -/
def applyRow : List CellFunc → List GoString → Except String (List GoString)
  | f :: fs, value :: rest =>
    match (f.call value).1 with
    | .error e => .error e
    | .ok cell =>
      match applyRow fs rest with
      | .error e => .error e
      | .ok cells => .ok (cell :: cells)
  | _, _ => .ok []

/-- The rows the specification describes for a sequence of raw rows. -/
def applyRows (funcList : List CellFunc) : List (List GoString) →
    Except String (List (List GoString))
  | [] => .ok []
  | v :: rest =>
    match applyRow funcList v with
    | .error e => .error e
    | .ok output =>
      match applyRows funcList rest with
      | .error e => .error e
      | .ok outputs => .ok (output :: outputs)

/-- A closure that a call leaves as it was: it has no captured state, or
its digest object is back in the reset state it started from. -/
def CellFunc.Stable (f : CellFunc) : Prop := ∀ value, (f.call value).2 = f

/-- The function vector of the sample descriptor and header. -/
def sampleFuncList : List CellFunc :=
  [passAsIs,
   .pure (maskingFunc { fore := 2, aft := 2 } 2 2 "*".toList true),
   dropAll,
   passAsIs]

/-- Masking options with fore 1 and aft 1, for a given mask character and
`keepLength` text. -/
def maskOneOne (maskChar keepLength : GoString) : AnoOption :=
  { Fore := "1".toList, Aft := "1".toList, MaskChar := maskChar, KeepLength := keepLength }

/-- A comparison `le` that relates to `>` as `<=` of `float64` does: it is
transitive, and `a <= b` excludes `a > b`. -/
def IsFloatOrder (fl : FloatLib) (le : fl.F → fl.F → Bool) : Prop :=
  (∀ a b c, le a b = true → le b c = true → le a c = true) ∧
  (∀ a b, le a b = true → fl.gt a b = false)

/-- The comparison `<=` of the exact instance. -/
def Exact.le (a b : Exact) : Bool :=
  decide (a.den ≠ 0 ∧ b.den ≠ 0 ∧ a.num * b.den ≤ b.num * a.den)

/-- The bounds `-1e308` and `1e308` as binary64 values. -/
def bigBound (neg : Bool) : F64 := .fin neg 5010420900022432 971

/-- Ranging options whose bounds are `-1e308` and `1e308`, with 4 bins. -/
def rangeBig : AnoOption :=
  { Lower := "-1e308".toList, Upper := "1e308".toList, Bin := "4".toList }

/-! # Theorems -/

/-! ## Masking -/

/-- Scenario S5 of the specification holds on the code. -/
theorem masking_S5_examples :
    runMasking maskS5 "abcdef".toList = .ok "ab**ef".toList ∧
    runMasking maskS5 "ab".toList = .ok [] := by
  decide

/-- C1 (code at the failing input): with fore 2, aft 2, mask character `*`
and keepLength false, the input `ab⏎cd` has 5 bytes, at least fore+aft, but
the pattern does not match across the newline, `FindStringSubmatchIndex`
returns nil and the index expression `resIndex[2]` panics: no output is
produced, where the claim promises one that starts with `ab` and ends with
`cd`. The same happens on `éé` (4 bytes, 2 characters). -/
theorem masking_panics_on_newline :
    runMasking { maskS5 with KeepLength := "false".toList } "ab\ncd".toList
      = .error "index out of range" ∧
    runMasking { maskS5 with KeepLength := "false".toList } "éé".toList
      = .error "index out of range" := by
  decide

/-- C2 (code at the failing input): with keepLength true, fore 2, aft 2 and
the two-character mask `ab`, the input `abcdefg` has a middle of 3
characters; the integer division `3 / 2` gives 1 before `math.Ceil` is
applied, the mask text is `ab`, and the slice `mask[0:3]` panics, where
the claim promises the output `ababafg`. An empty mask character panics in
the division itself. -/
theorem masking_keepLength_panics_on_long_mask :
    runMasking { maskS5 with MaskChar := "ab".toList } "abcdefg".toList
      = .error "slice bounds out of range" ∧
    runMasking { maskS5 with MaskChar := [] } "abcdefg".toList
      = .error "integer divide by zero" := by
  decide

/-! ## Binding of the function vector -/

section BindThm
variable (fl : FloatLib) (cr : CryptoLib)

/-- What `bindLoop` returns: the accumulator followed by one function per
remaining column, each the one `bindColumn` gives for that column. -/
theorem bindLoop_ok (options : OptionsMap) :
    ∀ (keys : List GoString) (acc out : List CellFunc),
      bindLoop fl cr options keys acc = .ok out →
      ∃ fs, out = acc ++ fs ∧
        List.Forall₂ (fun k f => bindColumn fl cr options k = .ok f) keys fs := by
  intro keys
  induction keys with
  | nil =>
    intro acc out h
    simp only [bindLoop, Except.ok.injEq] at h
    exact ⟨[], by simp [h], List.Forall₂.nil⟩
  | cons key rest ih =>
    intro acc out h
    unfold bindLoop at h
    cases hb : bindColumn fl cr options key with
    | error e => rw [hb] at h; cases h
    | ok f =>
      rw [hb] at h
      obtain ⟨fs, hout, hall⟩ := ih (acc ++ [f]) out h
      exact ⟨f :: fs, by simp [hout], List.Forall₂.cons hb hall⟩

/-- Entry `i` of a successfully built function vector is the function
`bindColumn` gives for column `i`. -/
theorem buildFuncList_get (options : OptionsMap) (headerInfo : List GoString)
    (funcList : List CellFunc) (h : buildFuncList fl cr options headerInfo = .ok funcList)
    (i : Nat) (hi : i < headerInfo.length) (f : CellFunc)
    (hf : bindColumn fl cr options (headerInfo.get ⟨i, hi⟩) = .ok f) :
    funcList[i]? = some f := by
  obtain ⟨fs, hout, hall⟩ := bindLoop_ok fl cr options headerInfo [] funcList h
  simp only [List.nil_append] at hout
  rw [hout]
  have hlen := hall.length_eq
  have hi2 : i < fs.length := hlen ▸ hi
  have hget := List.Forall₂.get hall hi hi2
  rw [hf] at hget
  simp only [List.get_eq_getElem, Except.ok.injEq] at hget
  rw [List.getElem?_eq_getElem hi2, hget]

/-- The function vector has one entry per column. -/
theorem buildFuncList_length (options : OptionsMap) (headerInfo : List GoString)
    (funcList : List CellFunc) (h : buildFuncList fl cr options headerInfo = .ok funcList) :
    funcList.length = headerInfo.length := by
  obtain ⟨fs, hout, hall⟩ := bindLoop_ok fl cr options headerInfo [] funcList h
  simp only [List.nil_append] at hout
  rw [hout]
  exact hall.length_eq.symm

/-- C3: a column whose name is absent from the descriptor, or present with
method `non`, is bound to `passAsIs`: binding that column does not panic,
in every function vector that `procData` builds entry `i` is `passAsIs`,
and `passAsIs` returns its input unchanged on every call. -/
theorem procData_binds_identity (options : OptionsMap) (headerInfo : List GoString)
    (i : Nat) (hi : i < headerInfo.length)
    (h : options (headerInfo.get ⟨i, hi⟩) = none ∨
      ∃ o, options (headerInfo.get ⟨i, hi⟩) = some o ∧ o.Method = "non".toList) :
    bindColumn fl cr options (headerInfo.get ⟨i, hi⟩) = .ok passAsIs ∧
    (∀ funcList, buildFuncList fl cr options headerInfo = .ok funcList →
      funcList[i]? = some passAsIs) ∧
    (∀ inString, passAsIs.call inString = (.ok inString, passAsIs)) := by
  have hb : bindColumn fl cr options (headerInfo.get ⟨i, hi⟩) = .ok passAsIs := by
    rcases h with h | ⟨o, ho, hm⟩
    · simp only [bindColumn, h]
    · have e1 : ¬ "non".toList = "encryption".toList := by decide
      have e2 : ¬ "non".toList = "rounding".toList := by decide
      have e3 : ¬ "non".toList = "data_range".toList := by decide
      have e4 : ¬ "non".toList = "blank_impute".toList := by decide
      have e5 : ¬ "non".toList = "pii_reduction".toList := by decide
      simp only [bindColumn, ho, hm, if_neg e1, if_neg e2, if_neg e3, if_neg e4, if_neg e5,
        if_true]
  exact ⟨hb, fun funcList hfl => buildFuncList_get fl cr options headerInfo funcList hfl i hi _ hb,
    fun _ => rfl⟩

/-- C4: a column present in the descriptor with a method other than the six
recognised ones is bound to `dropAll`: binding that column does not panic,
in every function vector that `procData` builds entry `i` is `dropAll`, and
`dropAll` returns the empty string on every call. -/
theorem procData_binds_drop (options : OptionsMap) (headerInfo : List GoString)
    (i : Nat) (hi : i < headerInfo.length) (o : FieldOption)
    (ho : options (headerInfo.get ⟨i, hi⟩) = some o)
    (h1 : o.Method ≠ "encryption".toList) (h2 : o.Method ≠ "rounding".toList)
    (h3 : o.Method ≠ "data_range".toList) (h4 : o.Method ≠ "blank_impute".toList)
    (h5 : o.Method ≠ "pii_reduction".toList) (h6 : o.Method ≠ "non".toList) :
    bindColumn fl cr options (headerInfo.get ⟨i, hi⟩) = .ok dropAll ∧
    (∀ funcList, buildFuncList fl cr options headerInfo = .ok funcList →
      funcList[i]? = some dropAll) ∧
    (∀ inString, dropAll.call inString = (.ok [], dropAll)) := by
  have hb : bindColumn fl cr options (headerInfo.get ⟨i, hi⟩) = .ok dropAll := by
    simp only [bindColumn, ho, if_neg h1, if_neg h2, if_neg h3, if_neg h4, if_neg h5, if_neg h6]
  exact ⟨hb, fun funcList hfl => buildFuncList_get fl cr options headerInfo funcList hfl i hi _ hb,
    fun _ => rfl⟩

end BindThm

/-- Witness of C3 at column `age` (absent) of the sample descriptor. -/
theorem procData_binds_identity_witness :
    bindColumn exactLib toyCrypto sampleOptions (sampleHeader.get ⟨3, by decide⟩) = .ok passAsIs ∧
    (∀ funcList, buildFuncList exactLib toyCrypto sampleOptions sampleHeader = .ok funcList →
      funcList[3]? = some passAsIs) ∧
    (∀ inString, passAsIs.call inString = (.ok inString, passAsIs)) :=
  procData_binds_identity exactLib toyCrypto sampleOptions sampleHeader 3 (by decide)
    (Or.inl (by decide))

/-- Witness of C4 at column `note` (method `remove`) of the sample descriptor. -/
theorem procData_binds_drop_witness :
    bindColumn exactLib toyCrypto sampleOptions (sampleHeader.get ⟨2, by decide⟩) = .ok dropAll ∧
    (∀ funcList, buildFuncList exactLib toyCrypto sampleOptions sampleHeader = .ok funcList →
      funcList[2]? = some dropAll) ∧
    (∀ inString, dropAll.call inString = (.ok [], dropAll)) :=
  procData_binds_drop exactLib toyCrypto sampleOptions sampleHeader 2 (by decide)
    { Method := "remove".toList } (by decide) (by decide) (by decide) (by decide) (by decide)
    (by decide) (by decide)

/-- The sample function vector is built without a panic and has one entry per column. -/
theorem sample_funcList_built :
    ∃ funcList, buildFuncList exactLib toyCrypto sampleOptions sampleHeader = .ok funcList ∧
      funcList.length = 4 := by
  refine ⟨_, rfl, rfl⟩

/-! ## Ranging -/

section RangeThm
variable (fl : FloatLib)

/-- The boundary loop started at iteration `i` with exactly the fuel it
needs appends the boundaries `i, i+1, .., binNum - 1`. -/
theorem boundaryLoop_eq (lowBound upBound : fl.F) (binNum : Int) :
    ∀ (fuel i : Nat) (boundary : List fl.F), (i : Int) + fuel = binNum →
      boundaryLoop fl lowBound upBound binNum fuel i boundary =
        boundary ++ (List.range fuel).map (fun k => boundaryAt fl lowBound upBound binNum (i + k)) := by
  intro fuel
  induction fuel with
  | zero => intro i boundary _; simp [boundaryLoop]
  | succ n ih =>
    intro i boundary h
    have hlt : (i : Int) < binNum := by omega
    have hnext : ((i + 1 : Nat) : Int) + n = binNum := by push_cast; omega
    have hstep := ih (i + 1) (boundary ++ [boundaryAt fl lowBound upBound binNum i]) hnext
    simp only [boundaryLoop, if_pos hlt]
    have hcast : ((i : Int) + 1) = ((i + 1 : Nat) : Int) := by push_cast; rfl
    rw [hcast]
    unfold boundaryAt at hstep ⊢
    rw [hstep, List.range_succ_eq_map]
    simp [List.map_map, Function.comp_def, Nat.add_assoc, Nat.add_comm 1]

/-- The boundary list in closed form: the computed boundaries
`0 .. binNum - 1` (none when `binNum ≤ 0`) followed by `upBound`. -/
theorem buildBoundary_eq (lowBound upBound : fl.F) (binNum : Int) :
    buildBoundary fl lowBound upBound binNum =
      (List.range binNum.toNat).map (boundaryAt fl lowBound upBound binNum) ++ [upBound] := by
  unfold buildBoundary
  rcases le_or_lt binNum 0 with h | h
  · have h0 : binNum.toNat = 0 := Int.toNat_eq_zero.mpr h
    simp [h0, boundaryLoop]
  · have hfuel : ((0 : Nat) : Int) + binNum.toNat = binNum := by
      simp [Int.toNat_of_nonneg h.le]
    have := boundaryLoop_eq fl lowBound upBound binNum binNum.toNat 0 [] hfuel
    rw [Nat.cast_zero] at this
    rw [this]
    simp

/-- C7 (amended): when lower, upper and bin parse and `bin ≥ 1`, the
closure of `buildRangingFunc` walks a boundary list of exactly `bin + 1`
entries; entry `i < bin` is `lower + ((upper - lower) / bin) * i` as
computed in floating point, and the last entry is upper itself. -/
theorem buildRangingFunc_boundary (options : AnoOption) (lowBound upBound : fl.F)
    (binNum : Int) (hl : fl.parseFloat options.Lower = some lowBound)
    (hu : fl.parseFloat options.Upper = some upBound)
    (hb : parseInt options.Bin = some binNum) (h : 1 ≤ binNum) :
    buildRangingFunc fl options = rangingFunc fl (buildBoundary fl lowBound upBound binNum) ∧
    ((buildBoundary fl lowBound upBound binNum).length : Int) = binNum + 1 ∧
    (∀ i : Nat, (i : Int) < binNum →
      (buildBoundary fl lowBound upBound binNum)[i]? =
        some (fl.add lowBound
          (fl.mul (fl.div (fl.sub upBound lowBound) (fl.ofInt binNum)) (fl.ofInt i)))) ∧
    (buildBoundary fl lowBound upBound binNum).getLast? = some upBound := by
  have hn : (binNum.toNat : Int) = binNum := Int.toNat_of_nonneg (by omega)
  refine ⟨?_, ?_, ?_, ?_⟩
  · simp only [buildRangingFunc, hl, hu, hb]
  · rw [buildBoundary_eq]
    simp only [List.length_append, List.length_map, List.length_range, List.length_singleton]
    push_cast
    omega
  · intro i hi
    have hi2 : i < binNum.toNat := by omega
    rw [buildBoundary_eq, List.getElem?_append_left (by simpa using hi2)]
    simp [List.getElem?_map, List.getElem?_range hi2, boundaryAt]
  · rw [buildBoundary_eq]
    simp

/-- The walk stops at boundary `k + 1` when that is the first boundary
strictly greater than the value; the left end is then boundary `k`. -/
theorem rangingLoop_stop (value : fl.F) (bk bk1 : fl.F) :
    ∀ (k : Nat) (bs : List fl.F) (before last : GoString),
      (∀ j b, j ≤ k → bs[j]? = some b → fl.gt b value = false) →
      bs[k]? = some bk → bs[k + 1]? = some bk1 → fl.gt bk1 value = true →
      rangingLoop fl value bs before last = fl.fmtV bk ++ " ~ ".toList ++ fl.fmtV bk1 := by
  intro k
  induction k with
  | zero =>
    intro bs before last hle h0 h1 hgt
    match bs, h0, h1 with
    | b :: c :: rest, h0, h1 =>
      simp only [List.getElem?_cons_zero, Option.some.injEq] at h0
      simp only [zero_add, List.getElem?_cons_succ, List.getElem?_cons_zero,
        Option.some.injEq] at h1
      subst h0 h1
      have hb : fl.gt b value = false := hle 0 b (Nat.le_refl 0) rfl
      simp [rangingLoop, hb, hgt]
  | succ n ih =>
    intro bs before last hle h0 h1 hgt
    match bs, h0, h1, hle with
    | b :: tl, h0, h1, hle =>
      have hb : fl.gt b value = false := hle 0 b (Nat.zero_le _) (by simp)
      simp only [List.getElem?_cons_succ] at h0 h1
      have hle2 : ∀ j c, j ≤ n → tl[j]? = some c → fl.gt c value = false :=
        fun j c hj hc => hle (j + 1) c (Nat.succ_le_succ hj) (by simpa using hc)
      simp only [rangingLoop, hb, Bool.false_eq_true, if_false]
      exact ih tl _ _ hle2 h0 h1 hgt

/-- When no boundary is strictly greater than the value, the walk ends
after the last boundary and returns its rendering followed by the tilde. -/
theorem rangingLoop_end (value : fl.F) :
    ∀ (bs : List fl.F) (before last : GoString),
      (∀ b ∈ bs, fl.gt b value = false) →
      rangingLoop fl value bs before last =
        (match bs.getLast? with
          | some b => fl.fmtV b
          | none => last) ++ " ~ ".toList := by
  intro bs
  induction bs with
  | nil => intro before last _; simp [rangingLoop]
  | cons b tl ih =>
    intro before last h
    have hb : fl.gt b value = false := h b (List.mem_cons_self _ _)
    have htl : ∀ c ∈ tl, fl.gt c value = false := fun c hc => h c (List.mem_cons_of_mem _ hc)
    simp only [rangingLoop, hb, Bool.false_eq_true, if_false]
    rw [ih _ _ htl]
    cases tl with
    | nil => simp
    | cons c rest =>
      rw [List.getLast?_cons_cons]
      cases hg : (c :: rest).getLast? with
      | none => simp at hg
      | some x => rfl

/-- When the first boundary is already strictly greater than the value, the
left end is empty. -/
theorem rangingLoop_first (value b : fl.F) (rest : List fl.F) (h : fl.gt b value = true) :
    rangingLoop fl value (b :: rest) [] [] = " ~ ".toList ++ fl.fmtV b := by
  simp [rangingLoop, h]

/-- The stopping rule of the ranging closure, for any boundary list: if
boundary `k + 1` is the first boundary strictly greater than the value (no
boundary `0 .. k` is), the output is `str(b_k) ~ str(b_{k+1})`; if no
boundary is strictly greater than the value, the output is `str(upper) ~ `. -/
theorem buildRangingFunc_interval (options : AnoOption) (lowBound upBound : fl.F)
    (binNum : Int) (inString : GoString) (value : fl.F)
    (hl : fl.parseFloat options.Lower = some lowBound)
    (hu : fl.parseFloat options.Upper = some upBound)
    (hb : parseInt options.Bin = some binNum)
    (hv : fl.parseFloat inString = some value) :
    (∀ (k : Nat) (bk bk1 : fl.F),
      (buildBoundary fl lowBound upBound binNum)[k]? = some bk →
      (buildBoundary fl lowBound upBound binNum)[k + 1]? = some bk1 →
      (∀ j b, j ≤ k → (buildBoundary fl lowBound upBound binNum)[j]? = some b →
        fl.gt b value = false) →
      fl.gt bk1 value = true →
      buildRangingFunc fl options inString = fl.fmtV bk ++ " ~ ".toList ++ fl.fmtV bk1) ∧
    ((∀ b ∈ buildBoundary fl lowBound upBound binNum, fl.gt b value = false) →
      buildRangingFunc fl options inString = fl.fmtV upBound ++ " ~ ".toList) := by
  have hf : buildRangingFunc fl options inString =
      rangingLoop fl value (buildBoundary fl lowBound upBound binNum) [] [] := by
    simp only [buildRangingFunc, hl, hu, hb, rangingFunc, hv]
  refine ⟨?_, ?_⟩
  · intro k bk bk1 hk hk1 hle hgt
    rw [hf]
    exact rangingLoop_stop fl value bk bk1 k _ [] [] hle hk hk1 hgt
  · intro hall
    rw [hf, rangingLoop_end fl value _ [] [] hall, buildBoundary_eq]
    simp

end RangeThm

/-- Witness of C7 at the options of scenario S4. -/
theorem buildRangingFunc_boundary_witness :
    buildRangingFunc exactLib rangeS4
      = rangingFunc exactLib (buildBoundary exactLib (Exact.ofInt 0) (Exact.ofInt 100) 4) ∧
    ((buildBoundary exactLib (Exact.ofInt 0) (Exact.ofInt 100) 4).length : Int) = 4 + 1 ∧
    (∀ i : Nat, (i : Int) < 4 →
      (buildBoundary exactLib (Exact.ofInt 0) (Exact.ofInt 100) 4)[i]? =
        some (exactLib.add (Exact.ofInt 0)
          (exactLib.mul (exactLib.div (exactLib.sub (Exact.ofInt 100) (Exact.ofInt 0))
            (exactLib.ofInt 4)) (exactLib.ofInt i)))) ∧
    (buildBoundary exactLib (Exact.ofInt 0) (Exact.ofInt 100) 4).getLast? = some (Exact.ofInt 100) :=
  buildRangingFunc_boundary exactLib rangeS4 (Exact.ofInt 0) (Exact.ofInt 100) 4
    (by decide) (by decide) (by decide) (by decide)

/-- Scenario S4 of the specification on inputs `37` and `100`. -/
theorem ranging_S4_examples :
    buildRangingFunc exactLib rangeS4 "37".toList = "25 ~ 50".toList ∧
    buildRangingFunc exactLib rangeS4 "100".toList = "100 ~ ".toList := by
  decide

/-- Outside a partition: with lower 100 above upper 0 and bin 4 the
boundaries are 100, 75, 50, 25, 0, and the input 60 gives ` ~ 100`. -/
theorem ranging_above_upper_fails_when_descending :
    exactLib.parseFloat "60".toList = some (Exact.ofInt 60) ∧
    exactLib.parseFloat "0".toList = some (Exact.ofInt 0) ∧
    exactLib.gt (Exact.ofInt 0) (Exact.ofInt 60) = false ∧
    buildRangingFunc exactLib
      { Lower := "100".toList, Upper := "0".toList, Bin := "4".toList } "60".toList
      = " ~ 100".toList ∧
    buildRangingFunc exactLib
      { Lower := "100".toList, Upper := "0".toList, Bin := "4".toList } "60".toList
      ≠ "0 ~ ".toList := by
  decide

/-- C6 (counterexample): for lower 0, upper 100, bin 4 the input `0` does
not produce ` ~ 25`. -/
theorem ranging_S4_zero_is_not_open :
    buildRangingFunc exactLib rangeS4 "0".toList ≠ " ~ 25".toList := by
  decide

/-- C6 (amended): for lower 0, upper 100, bin 4 the input `0`, equal to the
lower bound, produces `0 ~ 25`: the first boundary is not strictly greater
than the value, so it becomes the left end. -/
theorem ranging_S4_zero :
    buildRangingFunc exactLib rangeS4 "0".toList = "0 ~ 25".toList := by
  decide

/-! ## Rounding -/

/-- The shape of the rounding closure for `position ≤ 0`: on a parseable
input it renders, with no fractional digits, the floating-point value
`op(value / m) * m`, where `m = math.Pow(10, |position|)`; on any other
input it returns the diagnostic text. -/
theorem roundingFunc_nonpositive (fl : FloatLib) (op : fl.F → fl.F) (position : Int)
    (posPower : fl.F) (hp : position ≤ 0) (inString : GoString) :
    roundingFunc fl op position posPower inString =
      match fl.parseFloat inString with
      | some value => fl.formatFloat (fl.mul (op (fl.div value posPower)) posPower) 0
      | none => "parseFloat error:".toList ++ inString := by
  unfold roundingFunc
  cases fl.parseFloat inString with
  | none => rfl
  | some value => simp only [if_neg (not_lt.mpr hp)]

/-! ## Digests -/

/-- Every character that `hex.EncodeToString` produces is a lowercase
hexadecimal digit. -/
theorem hexEncodeToString_lowercase (src : List (Fin 256)) :
    ∀ c ∈ hexEncodeToString src, c ∈ hextable := by
  have hdigit : ∀ i, i < 16 → hextable.getD i '0' ∈ hextable := by decide
  intro c hc
  simp only [hexEncodeToString, List.mem_flatMap, List.mem_cons, List.mem_singleton,
    List.not_mem_nil, or_false] at hc
  obtain ⟨b, _, hb⟩ := hc
  rcases hb with hb | hb
  · rw [hb]
    exact hdigit _ (Nat.div_lt_of_lt_mul (by have := b.isLt; omega))
  · rw [hb]
    exact hdigit _ (Nat.mod_lt _ (by decide))

/-- A hashing closure whose digest object is in its reset state answers
every call of a sequence with the digest of that call's input, and is in
its reset state again after each call. -/
theorem callSeq_hashing (digest : GoString → List (Fin 256)) :
    ∀ inputs : List GoString,
      (CellFunc.hashing { digest := digest, written := [] }).callSeq inputs =
        inputs.map (fun s => .ok (hexEncodeToString (digest s))) := by
  intro inputs
  induction inputs with
  | nil => rfl
  | cons s rest ih =>
    simp only [CellFunc.callSeq, CellFunc.call, Hash.Write, Hash.Sum, Hash.Reset,
      List.nil_append, List.map_cons]
    rw [ih]

/-- C9: for a recognised algorithm, in every finite sequence of calls of
the function returned by `buildEncryptingFunc` each output is the
hexadecimal encoding, in lowercase digits, of the digest (or keyed MAC) of
that call's own input: the state is reset after every call. -/
theorem buildEncryptingFunc_calls (cr : CryptoLib) (options : AnoOption)
    (h : options.Algorithm = "hmac".toList ∨ options.Algorithm = "hash(sha256)".toList ∨
      options.Algorithm = "hash(md5)".toList)
    (inputs : List GoString) :
    (buildEncryptingFunc cr options).callSeq inputs =
      inputs.map (fun s => .ok (hexEncodeToString (expectedDigest cr options s))) ∧
    ∀ s, ∀ c ∈ hexEncodeToString (expectedDigest cr options s), c ∈ hextable := by
  refine ⟨?_, fun s => hexEncodeToString_lowercase _⟩
  have e1 : ¬ "hash(sha256)".toList = "hmac".toList := by decide
  have e2 : ¬ "hash(md5)".toList = "hmac".toList := by decide
  have e3 : ¬ "hash(md5)".toList = "hash(sha256)".toList := by decide
  rcases h with h | h | h
  · by_cases hs : options.Digest = "sha256".toList
    · have hm : ¬ options.Digest = "md5".toList := by rw [hs]; decide
      simp only [buildEncryptingFunc, expectedDigest, h, hs, if_true]
      rw [if_neg (by decide)]
      exact callSeq_hashing _ inputs
    · by_cases hm : options.Digest = "md5".toList
      · simp only [buildEncryptingFunc, expectedDigest, h, hm, if_true]
        rw [if_neg (by decide)]
        exact callSeq_hashing _ inputs
      · simp only [buildEncryptingFunc, expectedDigest, h, if_neg hs, if_neg hm, if_true]
        exact callSeq_hashing _ inputs
  · simp only [buildEncryptingFunc, expectedDigest, h, if_neg e1, if_true]
    exact callSeq_hashing _ inputs
  · simp only [buildEncryptingFunc, expectedDigest, h, if_neg e2, if_neg e3, if_true]
    exact callSeq_hashing _ inputs

/-- Witness of C9: HMAC with key `k`, called twice on `a@b` and once on `c`. -/
theorem buildEncryptingFunc_calls_witness :
    (buildEncryptingFunc toyCrypto
        { Algorithm := "hmac".toList, Digest := "sha256".toList, Key := "k".toList }).callSeq
        ["a@b".toList, "c".toList, "a@b".toList] =
      ["a@b".toList, "c".toList, "a@b".toList].map (fun s => .ok (hexEncodeToString
        (expectedDigest toyCrypto
          { Algorithm := "hmac".toList, Digest := "sha256".toList, Key := "k".toList } s))) ∧
    ∀ s, ∀ c ∈ hexEncodeToString (expectedDigest toyCrypto
        { Algorithm := "hmac".toList, Digest := "sha256".toList, Key := "k".toList } s),
      c ∈ hextable :=
  buildEncryptingFunc_calls toyCrypto
    { Algorithm := "hmac".toList, Digest := "sha256".toList, Key := "k".toList }
    (Or.inl (by decide)) ["a@b".toList, "c".toList, "a@b".toList]

/-! ## CSV output -/

/-- The field loop, started at an index `i` that leaves exactly the
remaining fields up to `numFields`, appends them joined by the separator. -/
theorem fieldLoop_eq (numFields : Int) :
    ∀ (x : List GoString) (i : Int) (buf : GoString), i + x.length = numFields →
      fieldLoop numFields x i buf = buf ++ ", ".toList.intercalate (x.map csvField) := by
  intro x
  induction x with
  | nil => intro i buf _; simp [fieldLoop, List.intercalate]
  | cons v rest ih =>
    intro i buf h
    have hnext : i + 1 + rest.length = numFields := by
      simp only [List.length_cons, Nat.cast_add, Nat.cast_one] at h
      omega
    simp only [fieldLoop]
    rw [ih (i + 1) _ hnext]
    cases rest with
    | nil =>
      have hlast : ¬ i < numFields - 1 := by
        simp only [List.length_cons, List.length_nil, Nat.cast_add, Nat.cast_one] at h
        omega
      simp only [if_neg hlast, List.map_nil, List.map_cons]
      by_cases hq : containsCommaOrSpace v = true
      · simp [csvField, hq, List.intercalate]
      · simp [csvField, hq, List.intercalate]
    | cons w more =>
      have hmid : i < numFields - 1 := by
        simp only [List.length_cons, Nat.cast_add, Nat.cast_one] at h
        omega
      simp only [if_pos hmid, List.map_cons]
      by_cases hq : containsCommaOrSpace v = true
      · simp [csvField, hq, List.intercalate, List.intersperse]
      · simp [csvField, hq, List.intercalate, List.intersperse]

/-- C10: for every header and every sequence of rows whose arity equals
the header's, `SaveData` first writes the header record and then one
record per row, in order; each record is its fields, quoted iff they
contain a comma or a space, joined by `, ` and terminated by `\r\n`. -/
theorem SaveData_csv (header : List GoString) (rows : List (List GoString))
    (h : ∀ x ∈ rows, x.length = header.length) :
    SaveData header rows = csvRecord header :: rows.map csvRecord := by
  have hrec : ∀ x : List GoString, x.length = header.length →
      writeRecord (header.length : Int) x = csvRecord x := by
    intro x hx
    unfold writeRecord csvRecord
    rw [fieldLoop_eq (header.length : Int) x 0 [] (by rw [hx]; simp)]
    simp
  simp only [SaveData, List.cons.injEq]
  exact ⟨hrec header rfl, List.map_congr_left (fun x hx => hrec x (h x hx))⟩

/-- Witness of C10, with scenario S6 of the specification: the row
`hello, world`, `x` under a two-column header. -/
theorem SaveData_csv_witness :
    SaveData ["greeting".toList, "tag".toList] [["hello, world".toList, "x".toList]] =
      csvRecord ["greeting".toList, "tag".toList] ::
        [["hello, world".toList, "x".toList]].map csvRecord :=
  SaveData_csv ["greeting".toList, "tag".toList] [["hello, world".toList, "x".toList]]
    (by decide)

/-- Scenario S6 of the specification, evaluated on the code. -/
theorem SaveData_S6_example :
    SaveData ["greeting".toList, "tag".toList] [["hello, world".toList, "x".toList]] =
      ["greeting, tag\r\n".toList, "\"hello, world\", x\r\n".toList] := by
  decide

/-! ## Masking where the pattern matches -/

theorem len_append (a b : GoString) : len (a ++ b) = len a + len b := by
  simp [len, List.sum_append]

theorem len_cons (c : Char) (a : GoString) : len (c :: a) = c.utf8Size + len a := by
  simp [len]

/-- The byte length is at least the number of characters. -/
theorem length_le_len (a : GoString) : a.length ≤ len a := by
  induction a with
  | nil => simp [len]
  | cons c a ih =>
    have := Char.utf8Size_pos c
    rw [len_cons, List.length_cons]
    omega

theorem isBoundary_zero (s : GoString) : isBoundary s 0 = true := by
  cases s <;> simp [isBoundary]

/-- The end of a prefix is a character boundary. -/
theorem isBoundary_prefix (a b : GoString) : isBoundary (a ++ b) (len a) = true := by
  induction a with
  | nil => simpa [len] using isBoundary_zero b
  | cons c a ih =>
    rw [List.cons_append, len_cons]
    simp only [isBoundary, Nat.add_sub_cancel_left, ih]
    simp

theorem takeBytes_prefix (a b : GoString) : takeBytes (a ++ b) (len a) = a := by
  induction a with
  | nil =>
    cases b with
    | nil => rfl
    | cons c b =>
      have := Char.utf8Size_pos c
      simp only [List.nil_append, takeBytes, len, List.map_nil, List.sum_nil]
      rw [if_neg (by omega)]
  | cons c a ih =>
    rw [List.cons_append, len_cons]
    simp only [takeBytes, Nat.add_sub_cancel_left, ih]
    rw [if_pos (by omega)]

theorem dropBytes_prefix (a b : GoString) : dropBytes (a ++ b) (len a) = b := by
  induction a with
  | nil =>
    cases b with
    | nil => rfl
    | cons c b => simp [dropBytes, len]
  | cons c a ih =>
    have := Char.utf8Size_pos c
    rw [List.cons_append, len_cons]
    simp only [dropBytes, Nat.add_sub_cancel_left, ih]
    rw [if_neg (by omega)]

/-- Slicing between the ends of two successive parts returns the middle part. -/
theorem goSlice_middle (a b c : GoString) :
    goSlice (a ++ b ++ c) (len a : Int) ((len a + len b : Nat) : Int) = .ok b := by
  have h1 : isBoundary (a ++ b ++ c) (len a) = true := by
    rw [List.append_assoc]; exact isBoundary_prefix a (b ++ c)
  have h2 : isBoundary (a ++ b ++ c) (len a + len b) = true := by
    rw [← len_append]; exact isBoundary_prefix (a ++ b) c
  have hlen : len (a ++ b ++ c) = len a + len b + len c := by
    rw [len_append, len_append]
  unfold goSlice
  rw [if_neg (by rw [hlen]; push_cast; omega)]
  simp only [Int.toNat_ofNat, h1, h2, Bool.and_self, if_true]
  rw [List.append_assoc, dropBytes_prefix, Nat.add_sub_cancel_left, takeBytes_prefix]

/-- A string splits into its first `n1` characters, its last `n3`
characters and what lies between. -/
theorem split_three (s : GoString) (n1 n3 : Nat) (h : n1 + n3 ≤ s.length) :
    s = s.take n1 ++ (s.drop n1).take (s.length - n1 - n3) ++ s.drop (s.length - n3) := by
  have hd : s.drop (s.length - n3) = (s.drop n1).drop (s.length - n1 - n3) := by
    rw [List.drop_drop]
    congr 1
    omega
  rw [hd, List.append_assoc, List.take_append_drop, List.take_append_drop]

theorem wrapInt64_of_small (z : Int) (h0 : 0 ≤ z) (h1 : z < 2 ^ 63) : wrapInt64 z = z := by
  unfold wrapInt64
  omega

/-- For non-negative counts the pattern matches every string without a
newline that has at least `fore + aft` characters, and the groups are the
first `fore` characters, the middle, and the last `aft` characters. -/
theorem findStringSubmatchIndex_of_match (fore aft : Int) (hf : 0 ≤ fore) (ha : 0 ≤ aft)
    (s : GoString) (hnl : ∀ c ∈ s, c ≠ '\n') (hlen : fore.toNat + aft.toNat ≤ s.length) :
    findStringSubmatchIndex { fore := fore, aft := aft } s =
      [0, (len s : Int), 0, (len (s.take fore.toNat) : Int), (len (s.take fore.toNat) : Int),
        (len (s.take fore.toNat) : Int)
          + (len ((s.drop fore.toNat).take (s.length - fore.toNat - aft.toNat)) : Int),
        (len (s.take fore.toNat) : Int)
          + (len ((s.drop fore.toNat).take (s.length - fore.toNat - aft.toNat)) : Int),
        (len s : Int)] := by
  have hall : ∀ t : GoString, (∀ c ∈ t, c ∈ s) → t.all (fun c => c != '\n') = true := by
    intro t ht
    rw [List.all_eq_true]
    intro c hc
    simpa using hnl c (ht c hc)
  have h1 := hall (s.take fore.toNat) (fun c hc => List.mem_of_mem_take hc)
  have h2 := hall ((s.drop fore.toNat).take (s.length - fore.toNat - aft.toNat))
    (fun c hc => List.mem_of_mem_drop (List.mem_of_mem_take hc))
  have h3 := hall (s.drop (s.length - aft.toNat)) (fun c hc => List.mem_of_mem_drop hc)
  simp only [findStringSubmatchIndex, itemLen, itemMatches, if_pos hf, if_pos ha]
  rw [if_neg (by omega), h1, h2, h3]
  rfl

theorem goSlice_head (a c : GoString) : goSlice (a ++ c) 0 (len a : Int) = .ok a := by
  have h := goSlice_middle [] a c
  simpa [len] using h

theorem goSlice_tail (a c : GoString) :
    goSlice (a ++ c) (len a : Int) (len (a ++ c) : Int) = .ok c := by
  have h := goSlice_middle a c []
  rw [List.append_nil] at h
  rw [len_append]
  exact h

/-- Without `keepLength`, on a non-empty input without a newline that has
at least `fore + aft` characters, the masking closure returns the first
`fore` characters, the mask text, and the last `aft` characters. -/
theorem maskingFunc_of_match (fore aft : Int) (hf : 0 ≤ fore) (ha : 0 ≤ aft)
    (maskChar s : GoString) (hs : s ≠ []) (hnl : ∀ c ∈ s, c ≠ '\n')
    (hlen : fore.toNat + aft.toNat ≤ s.length) :
    maskingFunc { fore := fore, aft := aft } fore aft maskChar false s =
      .ok (s.take fore.toNat ++ maskChar ++ s.drop (s.length - aft.toNat)) := by
  have hidx := findStringSubmatchIndex_of_match fore aft hf ha s hnl hlen
  have hsplit := split_three s fore.toNat aft.toNat hlen
  have hbytes := length_le_len s
  have hguard : (len s : Int) ≥ wrapInt64 (fore + aft) := by
    have hw : wrapInt64 (fore + aft) ≤ fore + aft := by
      unfold wrapInt64
      omega
    have h1 : fore + aft ≤ (s.length : Int) := by omega
    omega
  obtain ⟨g1, hg1⟩ : ∃ g1, g1 = s.take fore.toNat := ⟨_, rfl⟩
  obtain ⟨g2, hg2⟩ : ∃ g2, g2 = (s.drop fore.toNat).take (s.length - fore.toNat - aft.toNat) :=
    ⟨_, rfl⟩
  obtain ⟨g3, hg3⟩ : ∃ g3, g3 = s.drop (s.length - aft.toNat) := ⟨_, rfl⟩
  rw [← hg1, ← hg2] at hidx
  rw [← hg1, ← hg2, ← hg3] at hsplit
  rw [← hg1, ← hg3]
  have hA : goSlice s 0 (len g1 : Int) = .ok g1 := by
    have h := goSlice_head g1 (g2 ++ g3)
    rwa [← List.append_assoc, ← hsplit] at h
  have hC : goSlice s ((len g1 : Int) + (len g2 : Int)) (len s : Int) = .ok g3 := by
    have h := goSlice_tail (g1 ++ g2) g3
    rw [← hsplit, len_append] at h
    exact_mod_cast h
  simp only [maskingFunc, if_neg hs, if_pos hguard, hidx, Bool.false_eq_true, if_false]
  simp [goIndex, hA, hC, bind, Except.bind, pure, Except.pure]

theorem len_flatten_replicate (k : Nat) (m : GoString) :
    len ((List.replicate k m).flatten) = k * len m := by
  induction k with
  | zero => simp [len]
  | succ n ih =>
    rw [List.replicate_succ, List.flatten_cons, len_append, ih]
    ring

/-- With `keepLength`, on a non-empty input without a newline that has at
least `fore + aft` characters, the masking closure is determined by the
byte length `l` of the mask character and the byte length `n` of the
middle: it panics in the division when `l = 0`; it returns the first
`fore` characters, `n / l` copies of the mask character and the last `aft`
characters when `l` divides `n`; and it panics in the slice `mask[0:n]`
otherwise. -/
theorem maskingFunc_keepLength_of_match (fore aft : Int) (hf : 0 ≤ fore) (ha : 0 ≤ aft)
    (maskChar s : GoString) (hs : s ≠ []) (hnl : ∀ c ∈ s, c ≠ '\n')
    (hlen : fore.toNat + aft.toNat ≤ s.length) :
    maskingFunc { fore := fore, aft := aft } fore aft maskChar true s =
      if len maskChar = 0 then .error "integer divide by zero"
      else if len maskChar ∣ len ((s.drop fore.toNat).take (s.length - fore.toNat - aft.toNat)) then
        .ok (s.take fore.toNat
          ++ (List.replicate
              (len ((s.drop fore.toNat).take (s.length - fore.toNat - aft.toNat)) / len maskChar)
              maskChar).flatten
          ++ s.drop (s.length - aft.toNat))
      else .error "slice bounds out of range" := by
  have hidx := findStringSubmatchIndex_of_match fore aft hf ha s hnl hlen
  have hsplit := split_three s fore.toNat aft.toNat hlen
  have hbytes := length_le_len s
  have hguard : (len s : Int) ≥ wrapInt64 (fore + aft) := by
    have hw : wrapInt64 (fore + aft) ≤ fore + aft := by
      unfold wrapInt64
      omega
    have h1 : fore + aft ≤ (s.length : Int) := by omega
    omega
  obtain ⟨g1, hg1⟩ : ∃ g1, g1 = s.take fore.toNat := ⟨_, rfl⟩
  obtain ⟨g2, hg2⟩ : ∃ g2, g2 = (s.drop fore.toNat).take (s.length - fore.toNat - aft.toNat) :=
    ⟨_, rfl⟩
  obtain ⟨g3, hg3⟩ : ∃ g3, g3 = s.drop (s.length - aft.toNat) := ⟨_, rfl⟩
  rw [← hg1, ← hg2] at hidx
  rw [← hg1, ← hg2, ← hg3] at hsplit
  rw [← hg1, ← hg2, ← hg3]
  have hA : goSlice s 0 (len g1 : Int) = .ok g1 := by
    have h := goSlice_head g1 (g2 ++ g3)
    rwa [← List.append_assoc, ← hsplit] at h
  have hC : goSlice s ((len g1 : Int) + (len g2 : Int)) (len s : Int) = .ok g3 := by
    have h := goSlice_tail (g1 ++ g2) g3
    rw [← hsplit, len_append] at h
    exact_mod_cast h
  have hq : Int.tdiv (len g2 : Int) (len maskChar : Int)
      = ((len g2 / len maskChar : Nat) : Int) := (Int.ofNat_tdiv _ _).symm
  have hmid : (len g1 : Int) + (len g2 : Int) - (len g1 : Int) = (len g2 : Int) := by omega
  simp only [maskingFunc, if_neg hs, if_pos hguard, hidx, if_true]
  by_cases hz : len maskChar = 0
  · simp [goIndex, hz, bind, Except.bind, throw, throwThe, MonadExceptOf.throw]
  · rw [if_neg hz]
    have hrep : stringsRepeat maskChar ((len g2 / len maskChar : Nat) : Int)
        = .ok ((List.replicate (len g2 / len maskChar) maskChar).flatten) := by
      unfold stringsRepeat
      rw [if_neg (not_lt.mpr (Int.ofNat_nonneg _)), Int.toNat_ofNat]
    have hrep2 : stringsRepeat maskChar ((len g2 : Int) / (len maskChar : Int))
        = .ok ((List.replicate (len g2 / len maskChar) maskChar).flatten) := by
      have h := hrep
      push_cast at h
      exact h
    by_cases hd : len maskChar ∣ len g2
    · rw [if_pos hd]
      have hfull : len ((List.replicate (len g2 / len maskChar) maskChar).flatten) = len g2 := by
        rw [len_flatten_replicate, Nat.div_mul_cancel hd]
      have hB : goSlice ((List.replicate (len g2 / len maskChar) maskChar).flatten) 0
          (len g2 : Int) = .ok ((List.replicate (len g2 / len maskChar) maskChar).flatten) := by
        have h := goSlice_head ((List.replicate (len g2 / len maskChar) maskChar).flatten) []
        rw [List.append_nil, hfull] at h
        exact h
      simp [goIndex, hz, hq, hmid, hrep, hrep2, hA, hB, hC, bind, Except.bind, pure, Except.pure]
    · rw [if_neg hd]
      have hshort : len ((List.replicate (len g2 / len maskChar) maskChar).flatten) < len g2 := by
        rw [len_flatten_replicate]
        have h1 := Nat.div_mul_le_self (len g2) (len maskChar)
        have h2 : len g2 / len maskChar * len maskChar ≠ len g2 := by
          intro he
          exact hd ⟨len g2 / len maskChar, by rw [Nat.mul_comm]; exact he.symm⟩
        omega
      have hB : goSlice ((List.replicate (len g2 / len maskChar) maskChar).flatten) 0
          (len g2 : Int) = .error "slice bounds out of range" := by
        unfold goSlice
        rw [if_pos (by omega)]
      simp [goIndex, hz, hq, hmid, hrep, hrep2, hA, hB, bind, Except.bind, pure, Except.pure]

/-- Where the masking builder does what scenario S5 and the contract
describe: for counts between 0 and 1000 and `keepLength` false, an input
without a newline that has at least `fore + aft` characters keeps its
first `fore` and last `aft` characters around one copy of the mask
character; every input shorter than `fore + aft` bytes gives the empty
string, whatever `keepLength` is. -/
theorem runMasking_keeps_ends (options : AnoOption) (fore aft : Int) (keepLength : Bool)
    (hfp : parseInt options.Fore = some fore) (hap : parseInt options.Aft = some aft)
    (hkp : parseBool options.KeepLength = some keepLength)
    (hf : 0 ≤ fore) (hf2 : fore ≤ 1000) (ha : 0 ≤ aft) (ha2 : aft ≤ 1000) (s : GoString) :
    (keepLength = false → s ≠ [] → (∀ c ∈ s, c ≠ '\n') → fore.toNat + aft.toNat ≤ s.length →
      runMasking options s =
        .ok (s.take fore.toNat ++ options.MaskChar ++ s.drop (s.length - aft.toNat))) ∧
    ((len s : Int) < fore + aft → runMasking options s = .ok []) := by
  have hre : regexpMustCompile fore aft = .ok { fore := fore, aft := aft } := by
    unfold regexpMustCompile
    rw [if_neg (by omega)]
  have hrun : runMasking options s =
      maskingFunc { fore := fore, aft := aft } fore aft options.MaskChar keepLength s := by
    simp only [runMasking, buildMaskingFunc, hfp, hap, hkp, hre]
  refine ⟨?_, ?_⟩
  · intro hk hs hnl hlen
    rw [hrun, hk]
    exact maskingFunc_of_match fore aft hf ha options.MaskChar s hs hnl hlen
  · intro hshort
    rw [hrun]
    have hw : wrapInt64 (fore + aft) = fore + aft :=
      wrapInt64_of_small _ (by omega) (by omega)
    unfold maskingFunc
    by_cases hs : s = []
    · rw [if_pos hs]
    · rw [if_neg hs, if_neg (by rw [hw]; omega)]

/-! ## The query planner -/

section QueryThm
variable (fl : FloatLib)

/-- The projection loop, started at an index that leaves exactly the
remaining entries, appends them joined by a comma and a space. -/
theorem projectionLoop_eq (all : List GoString) :
    ∀ (xs : List GoString) (i : Int) (buffer : GoString), i + xs.length = all.length →
      projectionLoop all xs i buffer = buffer ++ ", ".toList.intercalate xs := by
  intro xs
  induction xs with
  | nil => intro i buffer _; simp [projectionLoop, List.intercalate]
  | cons a rest ih =>
    intro i buffer h
    have hnext : i + 1 + rest.length = all.length := by
      simp only [List.length_cons, Nat.cast_add, Nat.cast_one] at h
      omega
    simp only [projectionLoop]
    rw [ih (i + 1) _ hnext]
    cases rest with
    | nil =>
      have hlast : ¬ i < (all.length : Int) - 1 := by
        simp only [List.length_cons, List.length_nil, Nat.cast_add, Nat.cast_one] at h
        omega
      simp [if_neg hlast, List.intercalate]
    | cons b more =>
      have hmid : i < (all.length : Int) - 1 := by
        simp only [List.length_cons, Nat.cast_add, Nat.cast_one] at h
        omega
      simp [if_pos hmid, List.intercalate, List.intersperse]

/-- One step of the attribute loop appends the column of an exported
attribute to `attributesToExtract` and nothing otherwise. -/
theorem attributeStep_extract (baseTable : GoString) (st : AttrState) (key : GoString)
    (detail : AttrDetail fl.F) :
    (attributeStep fl baseTable st key detail).attributesToExtract =
      st.attributesToExtract ++
        (if detail.isExport then [baseTable ++ ".".toList ++ key] else []) := by
  unfold attributeStep
  by_cases he : detail.isExport = true
  · by_cases hp : (detail.isPii && !detail.isConsentSkip) = true
    · simp [he, hp]
    · simp [he, hp]
  · simp [he]

/-- After the attribute loop, `attributesToExtract` holds, in iteration
order, the column of every exported attribute. -/
theorem attributeLoop_extract (baseTable : GoString) :
    ∀ (attrs : List (GoString × AttrDetail fl.F)) (st : AttrState),
      (attributeLoop fl baseTable attrs st).attributesToExtract =
        st.attributesToExtract ++
          (attrs.filter (fun a => a.2.isExport)).map (fun a => baseTable ++ ".".toList ++ a.1) := by
  intro attrs
  induction attrs with
  | nil => intro st; simp [attributeLoop]
  | cons a rest ih =>
    intro st
    obtain ⟨key, detail⟩ := a
    simp only [attributeLoop]
    rw [ih, attributeStep_extract]
    by_cases he : detail.isExport = true
    · simp [he, List.filter_cons]
    · simp [he, List.filter_cons]

theorem intercalate_cons_cons (sep a b : GoString) (t : List GoString) :
    sep.intercalate (a :: b :: t) = a ++ sep ++ sep.intercalate (b :: t) := by
  simp [List.intercalate, List.intersperse]

theorem intercalate_cons_snoc (sep c : GoString) :
    ∀ (rest : List GoString) (a : GoString),
      sep.intercalate (a :: (rest ++ [c])) = sep.intercalate (a :: rest) ++ sep ++ c := by
  intro rest
  induction rest with
  | nil => intro a; simp [List.intercalate, List.intersperse]
  | cons b more ih =>
    intro a
    rw [List.cons_append, intercalate_cons_cons, ih b, intercalate_cons_cons]
    simp only [List.append_assoc]

/-- Joining a list extended by one entry. -/
theorem intercalate_snoc (sep : GoString) (l : List GoString) (c : GoString) :
    sep.intercalate (l ++ [c]) = if l = [] then c else sep.intercalate l ++ sep ++ c := by
  cases l with
  | nil => simp [List.intercalate]
  | cons a rest =>
    rw [List.cons_append, intercalate_cons_snoc, if_neg (List.cons_ne_nil a rest)]

/-- A join of non-empty entries is empty only for the empty list. -/
theorem intercalate_eq_nil (sep : GoString) (l : List GoString) (h : ∀ p ∈ l, p ≠ []) :
    sep.intercalate l = [] ↔ l = [] := by
  cases l with
  | nil => simp [List.intercalate]
  | cons a rest =>
    have ha : a ≠ [] := h a (List.mem_cons_self _ _)
    cases rest with
    | nil => simp [List.intercalate, ha]
    | cons b more => simp [List.intercalate, List.intersperse, ha]

/-- A consent condition is never empty. -/
theorem consentCondition_ne_nil (baseTable : GoString) (a : GoString × AttrDetail fl.F) :
    consentCondition fl baseTable a ≠ [] := by
  intro h
  have hl := congrArg List.length h
  simp [consentCondition] at hl

/-- One step of the attribute loop on the join text: an attribute that
needs consent appends its condition, after ` AND ` when the text is not
empty; any other attribute leaves the text unchanged. -/
theorem attributeStep_join (baseTable : GoString) (st : AttrState) (key : GoString)
    (detail : AttrDetail fl.F) :
    (attributeStep fl baseTable st key detail).joinSyntax =
      if needsConsent (key, detail) then
        (if st.joinSyntax ≠ [] then st.joinSyntax ++ " AND ".toList else st.joinSyntax)
          ++ consentCondition fl baseTable (key, detail)
      else st.joinSyntax := by
  unfold attributeStep needsConsent consentCondition
  by_cases he : detail.isExport = true
  · by_cases hp : (detail.isPii && !detail.isConsentSkip) = true
    · simp [he, hp]
    · simp [he, hp]
  · simp [he]

/-- After the attribute loop the join text is the consent conditions of
the attributes that need consent, joined by ` AND `. -/
theorem attributeLoop_join (baseTable : GoString) :
    ∀ (attrs : List (GoString × AttrDetail fl.F)) (st : AttrState) (prev : List GoString),
      st.joinSyntax = " AND ".toList.intercalate prev → (∀ p ∈ prev, p ≠ []) →
      (attributeLoop fl baseTable attrs st).joinSyntax =
        " AND ".toList.intercalate
          (prev ++ (attrs.filter needsConsent).map (consentCondition fl baseTable)) := by
  intro attrs
  induction attrs with
  | nil => intro st prev h _; simpa [attributeLoop] using h
  | cons a rest ih =>
    intro st prev h hprev
    obtain ⟨key, detail⟩ := a
    simp only [attributeLoop]
    by_cases hn : needsConsent (key, detail) = true
    · have hstep : (attributeStep fl baseTable st key detail).joinSyntax =
          " AND ".toList.intercalate (prev ++ [consentCondition fl baseTable (key, detail)]) := by
        rw [attributeStep_join, if_pos hn, intercalate_snoc, h]
        by_cases hp : prev = []
        · subst hp
          simp [List.intercalate]
        · have hne : " AND ".toList.intercalate prev ≠ [] :=
            fun he => hp ((intercalate_eq_nil _ prev hprev).mp he)
          rw [if_neg hp, if_pos hne]
      have hprev2 : ∀ p ∈ prev ++ [consentCondition fl baseTable (key, detail)], p ≠ [] := by
        intro p hp
        rcases List.mem_append.mp hp with hp | hp
        · exact hprev p hp
        · rw [List.mem_singleton.mp hp]
          exact consentCondition_ne_nil fl baseTable _
      rw [ih _ _ hstep hprev2]
      simp [List.filter_cons, hn]
    · have hstep : (attributeStep fl baseTable st key detail).joinSyntax =
          " AND ".toList.intercalate prev := by
        rw [attributeStep_join, if_neg hn, h]
      rw [ih _ _ hstep hprev]
      simp [List.filter_cons, hn]

/-- One step of the attribute loop on `consentTable`: an attribute that
needs consent overwrites it with its own consent table. -/
theorem attributeStep_consent (baseTable : GoString) (st : AttrState) (key : GoString)
    (detail : AttrDetail fl.F) :
    (attributeStep fl baseTable st key detail).consentTable =
      if needsConsent (key, detail) then
        detail.consentDatabase ++ ".".toList ++ detail.consentTable
      else st.consentTable := by
  unfold attributeStep needsConsent
  by_cases he : detail.isExport = true
  · by_cases hp : (detail.isPii && !detail.isConsentSkip) = true
    · simp [he, hp]
    · simp [he, hp]
  · simp [he]

theorem getLast?_getD_cons {α : Type} (a d : α) (l : List α) :
    ((a :: l).getLast?).getD d = (l.getLast?).getD a := by
  cases l with
  | nil => simp
  | cons b more =>
    rw [List.getLast?_cons_cons]
    cases hg : (b :: more).getLast? with
    | none => simp at hg
    | some x => rfl

/-- After the attribute loop `consentTable` is the consent table of the
last attribute that needs consent, or unchanged when there is none. -/
theorem attributeLoop_consent (baseTable : GoString) :
    ∀ (attrs : List (GoString × AttrDetail fl.F)) (st : AttrState),
      (attributeLoop fl baseTable attrs st).consentTable =
        (((attrs.filter needsConsent).map
          (fun a => a.2.consentDatabase ++ ".".toList ++ a.2.consentTable)).getLast?).getD
          st.consentTable := by
  intro attrs
  induction attrs with
  | nil => intro st; simp [attributeLoop]
  | cons a rest ih =>
    intro st
    obtain ⟨key, detail⟩ := a
    simp only [attributeLoop]
    rw [ih, attributeStep_consent]
    by_cases hn : needsConsent (key, detail) = true
    · simp only [hn, if_true, List.filter_cons, List.map_cons]
      rw [getLast?_getD_cons]
    · simp [hn, List.filter_cons]

/-- The text of a condition is never empty: it starts with a blank. -/
theorem conditionText_ne_nil (baseTable : GoString) (c : Condition) (value : GoString) :
    conditionText fl baseTable c value ≠ [] := by
  intro h
  have hl := congrArg List.length h
  unfold conditionText at hl
  simp only [List.length_nil] at hl
  split_ifs at hl <;> simp at hl

/-- The user-condition clause is empty exactly when there is no condition. -/
theorem conditionClauseFrom_eq_nil (baseTable : GoString) (idx : Nat) (conds : List Condition) :
    conditionClauseFrom fl baseTable idx conds = [] ↔ conds = [] := by
  cases conds with
  | nil => simp [conditionClauseFrom]
  | cons c rest =>
    have hne := conditionText_ne_nil fl baseTable c (if c.fixed then c.value else "?".toList)
    constructor
    · intro h
      unfold conditionClauseFrom at h
      exact absurd (List.append_eq_nil.mp (List.append_eq_nil.mp h).1).2 hne
    · intro h
      cases h

/-- Without supplied parameters the condition loop does not panic and
appends the user-condition clause. -/
theorem conditionLoop_none (baseTable : GoString) :
    ∀ (conds : List Condition) (idx paramsIndex : Nat) (conditionSyntax : GoString),
      conditionLoop fl baseTable none conds idx paramsIndex conditionSyntax =
        .ok (conditionSyntax ++ conditionClauseFrom fl baseTable idx conds) := by
  intro conds
  induction conds with
  | nil => intro idx paramsIndex cs; simp [conditionLoop, conditionClauseFrom]
  | cons c rest ih =>
    intro idx paramsIndex cs
    unfold conditionLoop conditionClauseFrom
    by_cases hf : c.fixed = true
    · by_cases hi : idx > 0
      · simp [hf, hi, ih]
      · simp [hf, hi, ih]
    · by_cases hi : idx > 0
      · simp [hf, hi, ih]
      · simp [hf, hi, ih]

/-- A consent table named by the join is never the empty string. -/
theorem lastConsentTable_ne_nil (options : QueryOptions fl.F) (t : GoString)
    (h : lastConsentTable options = some t) : t ≠ [] := by
  unfold lastConsentTable at h
  have hmem := List.mem_of_getLast?_eq_some h
  obtain ⟨a, _, ha⟩ := List.mem_map.mp hmem
  intro ht
  rw [ht] at ha
  have hl := congrArg List.length ha
  simp at hl

/-- The state after the attribute loop of `CreateQuerySyntax`. -/
theorem attributeLoop_init (options : QueryOptions fl.F) :
    attributeLoop fl (baseTableOf options) options.attributes
        { consentTable := [], attributesToExtract := [], joinSyntax := [] } =
      { consentTable := (lastConsentTable options).getD []
        attributesToExtract := (options.attributes.filter (fun a => a.2.isExport)).map
          (fun a => baseTableOf options ++ ".".toList ++ a.1)
        joinSyntax := consentClause fl options } := by
  have h1 := attributeLoop_extract fl (baseTableOf options) options.attributes
    { consentTable := [], attributesToExtract := [], joinSyntax := [] }
  have h2 := attributeLoop_join fl (baseTableOf options) options.attributes
    { consentTable := [], attributesToExtract := [], joinSyntax := [] } [] rfl
    (fun p hp => absurd hp (List.not_mem_nil p))
  have h3 := attributeLoop_consent fl (baseTableOf options) options.attributes
    { consentTable := [], attributesToExtract := [], joinSyntax := [] }
  simp only [List.nil_append] at h1 h2
  cases hst : attributeLoop fl (baseTableOf options) options.attributes
      { consentTable := [], attributesToExtract := [], joinSyntax := [] } with
  | mk ct ate js =>
    rw [hst] at h1 h2 h3
    simp only at h1 h2 h3
    rw [h1, h2, h3]
    rfl

/-- Without supplied parameters `CreateQuerySyntax` does not panic,
returns a nil error, and its statement is `assembledStatement`. -/
theorem CreateQuerySyntax_none (options : QueryOptions fl.F) :
    CreateQuerySyntax fl options none = .ok (assembledStatement fl options, none) := by
  have hst := attributeLoop_init fl options
  have hcl := conditionLoop_none fl (baseTableOf options) options.conditions 0 0 []
  unfold baseTableOf at hst hcl
  unfold CreateQuerySyntax
  simp only [hst, hcl, List.nil_append]
  congr 2
  unfold assembleQuery assembledStatement projectionOf
  simp only
  rw [projectionLoop_eq _ _ 0 _ (by simp)]
  unfold baseTableOf
  have hcs : options.conditions ≠ [] ↔
      conditionClauseFrom fl (options.conn.database ++ ".".toList ++ options.conn.table) 0
        options.conditions ≠ [] :=
    (not_congr (conditionClauseFrom_eq_nil fl _ 0 options.conditions)).symm
  have hcnil : options.conditions = [] →
      conditionClauseFrom fl (options.conn.database ++ ".".toList ++ options.conn.table) 0
        options.conditions = [] :=
    (conditionClauseFrom_eq_nil fl _ 0 options.conditions).mpr
  simp only [hcs]
  generalize conditionClauseFrom fl (options.conn.database ++ ".".toList ++ options.conn.table) 0
    options.conditions = cs
  generalize consentClause fl options = join
  cases hlast : lastConsentTable options with
  | none =>
    simp only [Option.getD_none, ne_eq, not_true_eq_false, if_false]
    by_cases hj : join = []
    · by_cases hc : cs = []
      · simp only [List.nil_append, hj, hc, not_true_eq_false, or_self, if_false, List.append_nil,
          List.append_assoc]
      · simp only [List.nil_append, hj, hc, not_true_eq_false, not_false_eq_true, or_true, if_true, if_false,
          List.append_nil, List.append_assoc]
    · by_cases hc : cs = []
      · simp only [List.nil_append, hj, hc, not_true_eq_false, not_false_eq_true, true_or, if_true, if_false,
          List.append_nil, List.append_assoc]
      · simp only [List.nil_append, hj, hc, not_false_eq_true, or_self, if_true, List.append_assoc]
  | some t =>
    have ht := lastConsentTable_ne_nil fl options t hlast
    simp only [Option.getD_some, ne_eq, ht, not_false_eq_true, if_true]
    by_cases hj : join = []
    · by_cases hc : cs = []
      · simp only [List.nil_append, hj, hc, not_true_eq_false, or_self, if_false, List.append_nil,
          List.append_assoc]
      · simp only [List.nil_append, hj, hc, not_true_eq_false, not_false_eq_true, or_true, if_true, if_false,
          List.append_nil, List.append_assoc]
    · by_cases hc : cs = []
      · simp only [List.nil_append, hj, hc, not_true_eq_false, not_false_eq_true, true_or, if_true, if_false,
          List.append_nil, List.append_assoc]
      · simp only [List.nil_append, hj, hc, not_false_eq_true, or_self, if_true, List.append_assoc]

/-- Whatever the state and the condition text, the assembled statement
starts with `SELECT`, the joined entries of `attributesToExtract`, and
` FROM ` followed by the base table. -/
theorem assembleQuery_prefix (baseTable : GoString) (st : AttrState) (conditionSyntax : GoString) :
    ∃ rest, assembleQuery baseTable st conditionSyntax =
      "SELECT ".toList ++ ", ".toList.intercalate st.attributesToExtract ++ " FROM ".toList
        ++ baseTable ++ rest := by
  unfold assembleQuery
  simp only
  rw [projectionLoop_eq _ _ 0 _ (by simp)]
  split_ifs
  all_goals first
    | exact ⟨_, by simp only [List.append_assoc]; rfl⟩
    | exact ⟨[], by simp only [List.append_nil]⟩

/-- With or without parameters, `CreateQuerySyntax` never returns a non-nil
error, and every statement it returns starts with the projection of the
exported attributes. -/
theorem CreateQuerySyntax_returns (options : QueryOptions fl.F) (params : Option (List GoString))
    (stmt : GoString) (err : Option GoString)
    (h : CreateQuerySyntax fl options params = .ok (stmt, err)) :
    err = none ∧ ∃ rest, stmt = "SELECT ".toList ++ projectionOf options ++ " FROM ".toList
      ++ baseTableOf options ++ rest := by
  have hst := attributeLoop_init fl options
  unfold baseTableOf at hst
  unfold CreateQuerySyntax at h
  simp only [hst] at h
  cases hc : conditionLoop fl (options.conn.database ++ ".".toList ++ options.conn.table) params
      options.conditions 0 0 [] with
  | error e => rw [hc] at h; cases h
  | ok cs =>
    rw [hc] at h
    simp only [Except.ok.injEq, Prod.mk.injEq] at h
    refine ⟨h.2.symm, ?_⟩
    obtain ⟨rest, hrest⟩ := assembleQuery_prefix (options.conn.database ++ ".".toList
      ++ options.conn.table)
      { consentTable := (lastConsentTable options).getD []
        attributesToExtract := (options.attributes.filter (fun a => a.2.isExport)).map
          (fun a => options.conn.database ++ ".".toList ++ options.conn.table ++ ".".toList ++ a.1)
        joinSyntax := consentClause fl options } cs
    exact ⟨rest, by rw [← h.1, hrest]; rfl⟩

/-- The consent clause is empty exactly when no attribute needs consent. -/
theorem consentClause_eq_nil (options : QueryOptions fl.F) :
    consentClause fl options = [] ↔ options.attributes.filter needsConsent = [] := by
  unfold consentClause
  rw [intercalate_eq_nil]
  · exact List.map_eq_nil_iff
  · intro p hp
    obtain ⟨a, _, ha⟩ := List.mem_map.mp hp
    rw [← ha]
    exact consentCondition_ne_nil fl _ a

/-- The join names a consent table exactly when some attribute needs consent. -/
theorem lastConsentTable_eq_none {F : Type} (options : QueryOptions F) :
    lastConsentTable options = none ↔ options.attributes.filter needsConsent = [] := by
  unfold lastConsentTable
  rw [List.getLast?_eq_none_iff]
  exact List.map_eq_nil_iff

/-- C11: without supplied parameters `CreateQuerySyntax` returns a
statement whose projection, between `SELECT ` and ` FROM `, is the entries
`<database>.<table>.<column>` of the exported attributes in iteration
order, separated by a comma and a space; there are as many entries as
attributes with `isExport = true`, and the other attributes contribute
nothing. With parameters, every statement returned has the same
projection. -/
theorem CreateQuerySyntax_projection (options : QueryOptions fl.F) :
    (∃ rest, CreateQuerySyntax fl options none =
      .ok ("SELECT ".toList
        ++ ", ".toList.intercalate
            ((options.attributes.filter (fun a => a.2.isExport)).map
              (fun a => options.conn.database ++ ".".toList ++ options.conn.table
                ++ ".".toList ++ a.1))
        ++ " FROM ".toList ++ rest, none)) ∧
    ((options.attributes.filter (fun a => a.2.isExport)).map
        (fun a => options.conn.database ++ ".".toList ++ options.conn.table
          ++ ".".toList ++ a.1)).length
      = options.attributes.countP (fun a => a.2.isExport) ∧
    (∀ params stmt err, CreateQuerySyntax fl options params = .ok (stmt, err) →
      ∃ rest, stmt = "SELECT ".toList ++ projectionOf options ++ " FROM ".toList ++ rest) := by
  refine ⟨?_, ?_, ?_⟩
  · obtain ⟨_, rest, hrest⟩ := CreateQuerySyntax_returns fl options none _ _
      (CreateQuerySyntax_none fl options)
    refine ⟨baseTableOf options ++ rest, ?_⟩
    rw [CreateQuerySyntax_none, hrest]
    simp only [projectionOf, List.append_assoc]
  · rw [List.length_map, List.countP_eq_length_filter]
  · intro params stmt err h
    obtain ⟨_, rest, hrest⟩ := CreateQuerySyntax_returns fl options params stmt err h
    exact ⟨baseTableOf options ++ rest, by rw [hrest]; simp only [List.append_assoc]⟩

/-- C12 (amended): `CreateQuerySyntax` has no error path. When some
attribute needs consent, also when several declare distinct consent
tables, it returns a statement with a nil error, and the `INNER JOIN` of
that statement names one consent table only: that of the last attribute,
in iteration order, that needs consent. -/
theorem CreateQuerySyntax_joins_last_consent_table (options : QueryOptions fl.F) (t : GoString)
    (h : lastConsentTable options = some t) :
    (∃ post, CreateQuerySyntax fl options none =
      .ok ("SELECT ".toList ++ projectionOf options ++ " FROM ".toList ++ baseTableOf options
        ++ " INNER JOIN ".toList ++ t ++ " ON ".toList ++ baseTableOf options
        ++ ".PROFILES_ID=".toList ++ t ++ ".PROFILES_ID".toList ++ post, none)) ∧
    (∀ params stmt err, CreateQuerySyntax fl options params = .ok (stmt, err) → err = none) := by
  refine ⟨?_, fun params stmt err hr => (CreateQuerySyntax_returns fl options params stmt err hr).1⟩
  rw [CreateQuerySyntax_none]
  unfold assembledStatement
  rw [h]
  refine ⟨if consentClause fl options ≠ [] ∨ options.conditions ≠ [] then
      " WHERE ".toList
        ++ (if consentClause fl options ≠ [] then consentClause fl options ++ " AND".toList
            else [])
        ++ conditionClauseFrom fl (baseTableOf options) 0 options.conditions
    else [], ?_⟩
  simp only [List.append_assoc]

/-- C13 (amended): for a predicate with operator `=` or `!=` and no
supplied parameters, the text appended after the connective is the column,
the operator and: the bare placeholder `?` for a non-fixed predicate and
for a fixed predicate whose value is the single character `?`; the bare
value for a fixed predicate whose value is not `?` and parses as a number;
the value in single quotes for every other fixed predicate. -/
theorem conditionText_equality (baseTable : GoString) (c : Condition)
    (h : c.operator = "=".toList ∨ c.operator = "!=".toList) :
    (c.fixed = false ∨ c.value = "?".toList →
      conditionText fl baseTable c (if c.fixed then c.value else "?".toList) =
        " ".toList ++ baseTable ++ ".".toList ++ c.attributeName ++ " ".toList ++ c.operator
          ++ " ?".toList) ∧
    (c.fixed = true → c.value ≠ "?".toList → (fl.parseFloat c.value).isSome = true →
      conditionText fl baseTable c (if c.fixed then c.value else "?".toList) =
        " ".toList ++ baseTable ++ ".".toList ++ c.attributeName ++ " ".toList ++ c.operator
          ++ " ".toList ++ c.value) ∧
    (c.fixed = true → c.value ≠ "?".toList → (fl.parseFloat c.value).isSome = false →
      conditionText fl baseTable c (if c.fixed then c.value else "?".toList) =
        " ".toList ++ baseTable ++ ".".toList ++ c.attributeName ++ " ".toList ++ c.operator
          ++ " \x27".toList ++ c.value ++ "\x27".toList) := by
  refine ⟨?_, ?_, ?_⟩
  · intro hq
    have hv : (if c.fixed then c.value else "?".toList) = "?".toList := by
      rcases hq with hq | hq
      · simp [hq]
      · by_cases hf : c.fixed = true
        · simp only [hf, if_true, hq]
        · simp [hf]
    rw [hv]
    unfold conditionText
    simp only [if_pos h, if_true]
  · intro hf hv hp
    unfold conditionText
    simp only [hf, if_true, if_pos h, if_neg hv, hp]
  · intro hf hv hp
    unfold conditionText
    simp only [hf, if_true, if_pos h, if_neg hv, hp, Bool.false_eq_true, if_false]

/-- When some attribute needs consent, the statement without supplied
parameters is: projection, base table, the join, ` WHERE `, the consent
clause, ` AND`, and the user-condition clause (empty when there is no
condition). -/
theorem CreateQuerySyntax_with_consent (options : QueryOptions fl.F)
    (hc : options.attributes.filter needsConsent ≠ []) :
    ∃ t, lastConsentTable options = some t ∧
      CreateQuerySyntax fl options none =
        .ok ("SELECT ".toList ++ projectionOf options ++ " FROM ".toList ++ baseTableOf options
          ++ (" INNER JOIN ".toList ++ t ++ " ON ".toList ++ baseTableOf options
            ++ ".PROFILES_ID=".toList ++ t ++ ".PROFILES_ID".toList)
          ++ " WHERE ".toList ++ consentClause fl options ++ " AND".toList
          ++ conditionClauseFrom fl (baseTableOf options) 0 options.conditions, none) := by
  have hj : consentClause fl options ≠ [] :=
    fun he => hc ((consentClause_eq_nil fl options).mp he)
  have hl : lastConsentTable options ≠ none :=
    fun he => hc ((lastConsentTable_eq_none options).mp he)
  obtain ⟨t, ht⟩ := Option.ne_none_iff_exists'.mp hl
  refine ⟨t, ht, ?_⟩
  rw [CreateQuerySyntax_none]
  unfold assembledStatement
  rw [ht]
  simp only [ne_eq, hj, not_false_eq_true, true_or, if_true, List.append_assoc]

/-- When no attribute needs consent, the statement without supplied
parameters has no join; it ends with ` WHERE ` and the user-condition
clause when there is a condition, and with the base table otherwise. -/
theorem CreateQuerySyntax_without_consent (options : QueryOptions fl.F)
    (hc : options.attributes.filter needsConsent = []) :
    CreateQuerySyntax fl options none =
      .ok ("SELECT ".toList ++ projectionOf options ++ " FROM ".toList ++ baseTableOf options
        ++ (if options.conditions ≠ [] then
              " WHERE ".toList ++ conditionClauseFrom fl (baseTableOf options) 0 options.conditions
            else []), none) := by
  have hj : consentClause fl options = [] := (consentClause_eq_nil fl options).mpr hc
  have hl : lastConsentTable options = none := (lastConsentTable_eq_none options).mpr hc
  rw [CreateQuerySyntax_none]
  unfold assembledStatement
  rw [hl]
  simp only [ne_eq, hj, not_true_eq_false, false_or, if_false, List.append_nil,
    List.nil_append, List.append_assoc]

/-- C14: in the statement returned by `CreateQuerySyntax` without supplied
parameters: when an attribute needs consent and there is a condition, the
text after ` WHERE ` is the consent clause, then `AND`, then the
user-condition clause; when no attribute needs consent and there is a
condition, the text after ` WHERE ` is the user-condition clause alone;
when there is neither, nothing follows the base table: no `WHERE` is
written. -/
theorem CreateQuerySyntax_where (options : QueryOptions fl.F) :
    (options.attributes.filter needsConsent ≠ [] → options.conditions ≠ [] →
      ∃ t, lastConsentTable options = some t ∧
        CreateQuerySyntax fl options none =
          .ok ("SELECT ".toList ++ projectionOf options ++ " FROM ".toList ++ baseTableOf options
            ++ (" INNER JOIN ".toList ++ t ++ " ON ".toList ++ baseTableOf options
              ++ ".PROFILES_ID=".toList ++ t ++ ".PROFILES_ID".toList)
            ++ " WHERE ".toList ++ consentClause fl options ++ " AND".toList
            ++ conditionClauseFrom fl (baseTableOf options) 0 options.conditions, none)) ∧
    (options.attributes.filter needsConsent = [] → options.conditions ≠ [] →
      CreateQuerySyntax fl options none =
        .ok ("SELECT ".toList ++ projectionOf options ++ " FROM ".toList ++ baseTableOf options
          ++ " WHERE ".toList
          ++ conditionClauseFrom fl (baseTableOf options) 0 options.conditions, none)) ∧
    (options.attributes.filter needsConsent = [] → options.conditions = [] →
      CreateQuerySyntax fl options none =
        .ok ("SELECT ".toList ++ projectionOf options ++ " FROM ".toList
          ++ baseTableOf options, none)) := by
  refine ⟨fun hc _ => CreateQuerySyntax_with_consent fl options hc, ?_, ?_⟩
  · intro hc hcond
    rw [CreateQuerySyntax_without_consent fl options hc, if_pos hcond]
    simp only [List.append_assoc]
  · intro hc hcond
    rw [CreateQuerySyntax_without_consent fl options hc, if_neg (not_not.mpr hcond),
      List.append_nil]

end QueryThm

/-- Witness of C11 at the sample descriptor: three of its four attributes
are exported. -/
theorem CreateQuerySyntax_projection_witness :
    (∃ rest, CreateQuerySyntax exactLib sampleQuery none =
      .ok ("SELECT ".toList
        ++ ", ".toList.intercalate
            ((sampleQuery.attributes.filter (fun a => a.2.isExport)).map
              (fun a => sampleQuery.conn.database ++ ".".toList ++ sampleQuery.conn.table
                ++ ".".toList ++ a.1))
        ++ " FROM ".toList ++ rest, none)) ∧
    ((sampleQuery.attributes.filter (fun a => a.2.isExport)).map
        (fun a => sampleQuery.conn.database ++ ".".toList ++ sampleQuery.conn.table
          ++ ".".toList ++ a.1)).length
      = sampleQuery.attributes.countP (fun a => a.2.isExport) ∧
    (∀ params stmt err, CreateQuerySyntax exactLib sampleQuery params = .ok (stmt, err) →
      ∃ rest, stmt = "SELECT ".toList ++ projectionOf sampleQuery ++ " FROM ".toList ++ rest) :=
  CreateQuerySyntax_projection exactLib sampleQuery

set_option maxRecDepth 100000 in
/-- The statement of the sample descriptor, without and with a supplied
parameter. -/
theorem CreateQuerySyntax_sample :
    CreateQuerySyntax exactLib sampleQuery none =
      .ok (("SELECT DB.T.ID, DB.T.EMAIL, DB.T.AGE FROM DB.T"
        ++ " INNER JOIN CDB.CT ON DB.T.PROFILES_ID=CDB.CT.PROFILES_ID"
        ++ " WHERE CDB.CT.EMAIL=1 AND ADD_MONTHS(TO_DATE(DB.T.LAST_ACCESSED), 12) > NOW()"
        ++ " AND DB.T.AGE >= 20 AND DB.T.ID = ?").toList, none) ∧
    CreateQuerySyntax exactLib sampleQuery (some ["7".toList]) =
      .ok (("SELECT DB.T.ID, DB.T.EMAIL, DB.T.AGE FROM DB.T"
        ++ " INNER JOIN CDB.CT ON DB.T.PROFILES_ID=CDB.CT.PROFILES_ID"
        ++ " WHERE CDB.CT.EMAIL=1 AND ADD_MONTHS(TO_DATE(DB.T.LAST_ACCESSED), 12) > NOW()"
        ++ " AND DB.T.AGE >= 20 AND DB.T.ID = \x277\x27").toList, none) ∧
    CreateQuerySyntax exactLib sampleQuery (some []) = .error "index out of range" := by
  decide

set_option maxRecDepth 100000 in
/-- C12 (counterexample): the columns `EMAIL` and `PHONE` declare the
distinct consent tables `CDB1.CT` and `CDB2.CT`, and `CreateQuerySyntax`
returns a statement with a nil error; the join names `CDB2.CT` only, while
the first consent condition refers to `CDB1.CT`. -/
theorem CreateQuerySyntax_two_consent_tables :
    CreateQuerySyntax exactLib twoConsentQuery none =
      .ok (("SELECT DB.T.EMAIL, DB.T.PHONE FROM DB.T"
        ++ " INNER JOIN CDB2.CT ON DB.T.PROFILES_ID=CDB2.CT.PROFILES_ID"
        ++ " WHERE CDB1.CT.EMAIL=1 AND ADD_MONTHS(TO_DATE(DB.T.LAST_ACCESSED), 12) > NOW()"
        ++ " AND CDB2.CT.PHONE=1 AND ADD_MONTHS(TO_DATE(DB.T.LAST_ACCESSED), 12) > NOW()"
        ++ " AND").toList, none) := by
  decide

/-- Witness of C12 at the descriptor with two consent tables. -/
theorem CreateQuerySyntax_joins_last_consent_table_witness :
    (∃ post, CreateQuerySyntax exactLib twoConsentQuery none =
      .ok ("SELECT ".toList ++ projectionOf twoConsentQuery ++ " FROM ".toList
        ++ baseTableOf twoConsentQuery
        ++ " INNER JOIN ".toList ++ "CDB2.CT".toList ++ " ON ".toList
        ++ baseTableOf twoConsentQuery
        ++ ".PROFILES_ID=".toList ++ "CDB2.CT".toList ++ ".PROFILES_ID".toList ++ post, none)) ∧
    (∀ params stmt err, CreateQuerySyntax exactLib twoConsentQuery params = .ok (stmt, err) →
      err = none) :=
  CreateQuerySyntax_joins_last_consent_table exactLib twoConsentQuery "CDB2.CT".toList (by decide)

/-- C13 (counterexample): a fixed predicate `NAME = ?`, whose value does
not parse as a number, is rendered with the bare placeholder, not with the
value in single quotes. -/
theorem CreateQuerySyntax_fixed_question_mark :
    exactLib.parseFloat "?".toList = none ∧
    CreateQuerySyntax exactLib questionQuery none =
      .ok ("SELECT DB.T.ID FROM DB.T WHERE  DB.T.NAME = ?".toList, none) ∧
    CreateQuerySyntax exactLib questionQuery none ≠
      .ok ("SELECT DB.T.ID FROM DB.T WHERE  DB.T.NAME = \x27?\x27".toList, none) := by
  decide

/-- Witness of C13 at the fixed predicate `AGE = 20` on base table `DB.T`. -/
theorem conditionText_equality_witness :
    conditionText exactLib "DB.T".toList
        { attributeName := "AGE".toList, operator := "=".toList, value := "20".toList,
          fixed := true, connection := [] }
        (if true then "20".toList else "?".toList) =
      " ".toList ++ "DB.T".toList ++ ".".toList ++ "AGE".toList ++ " ".toList ++ "=".toList
        ++ " ".toList ++ "20".toList :=
  (conditionText_equality exactLib "DB.T".toList
    { attributeName := "AGE".toList, operator := "=".toList, value := "20".toList,
      fixed := true, connection := [] } (Or.inl (by decide))).2.1
    (by decide) (by decide) (by decide)

set_option maxRecDepth 100000 in
/-- Witness of C14 at the sample descriptor, where an attribute needs
consent and there are conditions. -/
theorem CreateQuerySyntax_where_witness :
    ∃ t, lastConsentTable sampleQuery = some t ∧
      CreateQuerySyntax exactLib sampleQuery none =
        .ok ("SELECT ".toList ++ projectionOf sampleQuery ++ " FROM ".toList
          ++ baseTableOf sampleQuery
          ++ (" INNER JOIN ".toList ++ t ++ " ON ".toList ++ baseTableOf sampleQuery
            ++ ".PROFILES_ID=".toList ++ t ++ ".PROFILES_ID".toList)
          ++ " WHERE ".toList ++ consentClause exactLib sampleQuery ++ " AND".toList
          ++ conditionClauseFrom exactLib (baseTableOf sampleQuery) 0 sampleQuery.conditions,
          none) :=
  (CreateQuerySyntax_where exactLib sampleQuery).1 (by decide) (by decide)

/-- C15 (code at the failing input): the exported column `FROM_DATE` gives
the statement `SELECT DB.T.FROM_DATE FROM DB.T`; `strings.Index` finds the
first `FROM` inside the column name, and the count query becomes
`SELECT COUNT(*) FROM_DATE FROM DB.T` instead of
`SELECT COUNT(*) FROM DB.T`. -/
theorem GetDataSize_cuts_inside_column_name :
    CreateQuerySyntax exactLib fromQuery none =
      .ok ("SELECT DB.T.FROM_DATE FROM DB.T".toList, none) ∧
    modifiedQuery "SELECT DB.T.FROM_DATE FROM DB.T".toList =
      .ok "SELECT COUNT(*) FROM_DATE FROM DB.T".toList ∧
    modifiedQuery "SELECT DB.T.FROM_DATE FROM DB.T".toList ≠
      .ok "SELECT COUNT(*) FROM DB.T".toList := by
  decide

set_option maxRecDepth 100000 in
/-- C18 (code at the failing input): with one column under consent and no
condition, the statement ends with a dangling `AND` after the consent
clause. -/
theorem CreateQuerySyntax_trailing_and :
    CreateQuerySyntax exactLib consentOnlyQuery none =
      .ok (("SELECT DB.T.EMAIL FROM DB.T"
        ++ " INNER JOIN CDB.CT ON DB.T.PROFILES_ID=CDB.CT.PROFILES_ID"
        ++ " WHERE CDB.CT.EMAIL=1 AND ADD_MONTHS(TO_DATE(DB.T.LAST_ACCESSED), 12) > NOW()"
        ++ " AND").toList, none) ∧
    consentClause exactLib consentOnlyQuery =
      "CDB.CT.EMAIL=1 AND ADD_MONTHS(TO_DATE(DB.T.LAST_ACCESSED), 12) > NOW()".toList := by
  decide

/-! ## The supervisor and the readers -/

/-- The worker count, as a natural number: the quotient, plus one when the
division leaves a remainder; the sum does not wrap around. -/
theorem calcNProc_eq (totalSize blockSize : Nat) (hB : 0 < blockSize)
    (hT : totalSize < 2 ^ 64) :
    calcNProc totalSize blockSize =
      .ok (totalSize / blockSize + if totalSize % blockSize > 0 then 1 else 0) := by
  unfold calcNProc
  rw [if_neg (by omega)]
  by_cases hr : totalSize % blockSize > 0
  · simp only [if_pos hr]
    have hle : totalSize / blockSize ≤ totalSize := Nat.div_le_self _ _
    have hlt : totalSize / blockSize + 1 < 2 ^ 64 := by
      have hq : totalSize / blockSize < totalSize := by
        apply Nat.div_lt_self
        · rcases Nat.eq_zero_or_pos totalSize with h0 | h0
          · rw [h0, Nat.zero_mod] at hr
            exact absurd hr (Nat.lt_irrefl 0)
          · exact h0
        · rcases Nat.lt_or_ge 1 blockSize with h1 | h1
          · exact h1
          · have hb1 : blockSize = 1 := by omega
            rw [hb1, Nat.mod_one] at hr
            exact absurd hr (Nat.lt_irrefl 0)
      omega
    rw [Nat.mod_eq_of_lt hlt]
  · simp only [if_neg hr, Nat.add_zero]

/-- C16: for every total row count `T` and block size `B > 0`, both
unsigned 64-bit, the worker count computed by `ExportRequest` is the
least `N` with `N * B ≥ T`; the offsets `i * B` that `ExecuteQuery` issues
for `0 ≤ i < N` do not wrap around, and the windows `[i*B, i*B + B)` are
pairwise disjoint and cover every row offset below `T`. -/
theorem calcNProc_ceil (T B : Nat) (hB : 0 < B) (hB2 : B < 2 ^ 64) (hT : T < 2 ^ 64) :
    ∃ N, calcNProc T B = .ok N ∧
      T ≤ N * B ∧
      (∀ M, T ≤ M * B → N ≤ M) ∧
      queryWindows B N = (List.range N).map (fun i => (B, i * B)) ∧
      (∀ r, r < T → ∃ i, i < N ∧ i * B ≤ r ∧ r < i * B + B) ∧
      (∀ i j r, i * B ≤ r → r < i * B + B → j * B ≤ r → r < j * B + B → i = j) := by
  have hdm : B * (T / B) + T % B = T := Nat.div_add_mod T B
  have hmod : T % B < B := Nat.mod_lt T hB
  have hcomm : T / B * B = B * (T / B) := Nat.mul_comm _ _
  refine ⟨T / B + if T % B > 0 then 1 else 0, calcNProc_eq T B hB hT, ?_, ?_, ?_, ?_, ?_⟩
  · by_cases hr : T % B > 0
    · rw [if_pos hr, Nat.add_mul, Nat.one_mul]
      omega
    · rw [if_neg hr, Nat.add_zero]
      omega
  · intro M hM
    by_cases hr : T % B > 0
    · rw [if_pos hr]
      by_contra hlt
      have hle : M ≤ T / B := by omega
      have := Nat.mul_le_mul_right B hle
      omega
    · rw [if_neg hr, Nat.add_zero]
      by_contra hlt
      have hle : M + 1 ≤ T / B := by omega
      have := Nat.mul_le_mul_right B hle
      rw [Nat.add_mul, Nat.one_mul] at this
      omega
  · unfold queryWindows
    apply List.map_congr_left
    intro i hi
    have hiN := List.mem_range.mp hi
    have hile : i ≤ T / B := by
      by_cases hr : T % B > 0
      · rw [if_pos hr] at hiN; omega
      · rw [if_neg hr] at hiN; omega
    have := Nat.mul_le_mul_right B hile
    rw [Nat.mod_eq_of_lt (by omega)]
  · intro r hr
    refine ⟨r / B, ?_, Nat.div_mul_le_self r B, ?_⟩
    · have hrb : r / B ≤ T / B := Nat.div_le_div_right (Nat.le_of_lt hr)
      by_cases hrem : T % B > 0
      · rw [if_pos hrem]; omega
      · rw [if_neg hrem, Nat.add_zero]
        by_contra hge
        have heq : r / B = T / B := by omega
        have h1 := Nat.div_add_mod r B
        have h2 := Nat.mod_lt r hB
        rw [heq] at h1
        omega
    · have h1 := Nat.div_add_mod r B
      have h2 := Nat.mod_lt r hB
      have h3 : r / B * B = B * (r / B) := Nat.mul_comm _ _
      omega
  · intro i j r hi1 hi2 hj1 hj2
    have hi : r / B = i := Nat.div_eq_of_lt_le hi1 (by rw [Nat.succ_mul]; exact hi2)
    have hj : r / B = j := Nat.div_eq_of_lt_le hj1 (by rw [Nat.succ_mul]; exact hj2)
    omega

/-- Witness of C16 at 250001 rows and the block size 100000 of the source:
three workers. -/
theorem calcNProc_ceil_witness :
    ∃ N, calcNProc 250001 100000 = .ok N ∧
      250001 ≤ N * 100000 ∧
      (∀ M, 250001 ≤ M * 100000 → N ≤ M) ∧
      queryWindows 100000 N = (List.range N).map (fun i => (100000, i * 100000)) ∧
      (∀ r, r < 250001 → ∃ i, i < N ∧ i * 100000 ≤ r ∧ r < i * 100000 + 100000) ∧
      (∀ i j r, i * 100000 ≤ r → r < i * 100000 + 100000 →
        j * 100000 ≤ r → r < j * 100000 + 100000 → i = j) :=
  calcNProc_ceil 250001 100000 (by decide) (by decide) (by decide)

/-- The worker count and the windows for 250001 rows in blocks of 100000. -/
theorem calcNProc_example :
    calcNProc 250001 100000 = .ok 3 ∧
    queryWindows 100000 3 = [(100000, 0), (100000, 100000), (100000, 200000)] := by
  decide

/-! ## The transformer worker -/

theorem stable_pure (g : GoString → Except String GoString) : (CellFunc.pure g).Stable :=
  fun _ => rfl

theorem stable_hashing (digest : GoString → List (Fin 256)) :
    (CellFunc.hashing { digest := digest, written := [] }).Stable :=
  fun _ => rfl

/-- Every closure of `buildEncryptingFunc` is stable. -/
theorem buildEncryptingFunc_stable (cr : CryptoLib) (options : AnoOption) :
    (buildEncryptingFunc cr options).Stable := by
  unfold buildEncryptingFunc
  split_ifs
  all_goals first
    | exact stable_hashing _
    | exact stable_pure _

/-- Every function that `procData` binds to a column is stable. -/
theorem bindColumn_stable (fl : FloatLib) (cr : CryptoLib) (options : OptionsMap)
    (key : GoString) (f : CellFunc) (h : bindColumn fl cr options key = .ok f) : f.Stable := by
  unfold bindColumn at h
  have hmask : ∀ o : AnoOption, (buildMaskingFunc o).map CellFunc.pure = .ok f → f.Stable := by
    intro o ho
    cases hm : buildMaskingFunc o with
    | error e => rw [hm] at ho; cases ho
    | ok g =>
      rw [hm] at ho
      simp only [Except.map, Except.ok.injEq] at ho
      rw [← ho]
      exact stable_pure g
  cases ho : options key with
  | none =>
    rw [ho] at h
    simp only [Except.ok.injEq] at h
    rw [← h]
    exact stable_pure _
  | some option =>
    rw [ho] at h
    simp only at h
    split_ifs at h
    · simp only [Except.ok.injEq] at h
      rw [← h]
      exact buildEncryptingFunc_stable cr _
    · simp only [Except.ok.injEq] at h
      rw [← h]
      exact stable_pure _
    · simp only [Except.ok.injEq] at h
      rw [← h]
      exact stable_pure _
    · exact hmask _ h
    · exact hmask _ h
    · simp only [Except.ok.injEq] at h
      rw [← h]
      exact stable_pure _
    · simp only [Except.ok.injEq] at h
      rw [← h]
      exact stable_pure _

/-- Every entry of a function vector that `procData` builds is stable. -/
theorem buildFuncList_stable (fl : FloatLib) (cr : CryptoLib) (options : OptionsMap)
    (headerInfo : List GoString) (funcList : List CellFunc)
    (h : buildFuncList fl cr options headerInfo = .ok funcList) :
    ∀ f ∈ funcList, f.Stable := by
  obtain ⟨fs, hout, hall⟩ := bindLoop_ok fl cr options headerInfo [] funcList h
  simp only [List.nil_append] at hout
  rw [hout]
  intro f hf
  obtain ⟨i, hi, hget⟩ := List.getElem_of_mem hf
  have hi1 : i < headerInfo.length := hall.length_eq ▸ hi
  have hb := List.Forall₂.get hall hi1 hi
  simp only [List.get_eq_getElem] at hb
  rw [hget] at hb
  exact bindColumn_stable fl cr options _ f hb

theorem set_getElem_same {α : Type} (l : List α) (i : Nat) (h : i < l.length) :
    l.set i l[i] = l := by
  apply List.ext_getElem
  · simp
  · intro n h1 h2
    by_cases hn : i = n
    · subst hn; simp
    · simp [List.getElem_set, hn]

theorem applyRow_nil_right (fs : List CellFunc) : applyRow fs [] = .ok [] := by
  cases fs <;> rfl

/-- With stable functions and enough of them for the remaining cells, the
cell loop never fails in the lookup `funcList[i]`: it computes the row of
the specification and leaves the function vector as it was. -/
theorem rowLoop_eq (funcList : List CellFunc) (hst : ∀ f ∈ funcList, f.Stable) :
    ∀ (v : List GoString) (i : Nat) (output : List GoString),
      i + v.length ≤ funcList.length →
      rowLoop v i funcList output =
        match applyRow (funcList.drop i) v with
        | .error e => .error e
        | .ok cells => .ok (output ++ cells, funcList) := by
  intro v
  induction v with
  | nil =>
    intro i output _
    rw [applyRow_nil_right]
    simp [rowLoop]
  | cons value rest ih =>
    intro i output hlen
    have hi : i < funcList.length := by
      simp only [List.length_cons] at hlen
      omega
    have hnext : i + 1 + rest.length ≤ funcList.length := by
      simp only [List.length_cons] at hlen
      omega
    have hdrop : funcList.drop i = funcList[i] :: funcList.drop (i + 1) :=
      List.drop_eq_getElem_cons hi
    have hstable := hst funcList[i] (List.getElem_mem hi) value
    rw [hdrop]
    unfold rowLoop applyRow
    rw [List.get?_eq_getElem?, List.getElem?_eq_getElem hi]
    simp only
    cases hcall : funcList[i].call value with
    | mk r f1 =>
      rw [hcall] at hstable
      simp only at hstable
      cases r with
      | error e => rfl
      | ok cell =>
        simp only
        rw [hstable, set_getElem_same funcList i hi, ih (i + 1) (output ++ [cell]) hnext]
        cases applyRow (funcList.drop (i + 1)) rest with
        | error e => rfl
        | ok cells => simp

/-- With stable functions and rows no longer than the function vector,
the receive loop sends exactly the rows of the specification, in order. -/
theorem workerLoop_eq (funcList : List CellFunc) (hst : ∀ f ∈ funcList, f.Stable) :
    ∀ (rows sent : List (List GoString)), (∀ v ∈ rows, v.length ≤ funcList.length) →
      workerLoop rows funcList sent =
        match applyRows funcList rows with
        | .error e => .error e
        | .ok outputs => .ok (sent ++ outputs) := by
  intro rows
  induction rows with
  | nil => intro sent _; simp [workerLoop, applyRows]
  | cons v rest ih =>
    intro sent hrows
    have hv : 0 + v.length ≤ funcList.length := by
      have := hrows v (List.mem_cons_self _ _)
      omega
    have hrest : ∀ w ∈ rest, w.length ≤ funcList.length :=
      fun w hw => hrows w (List.mem_cons_of_mem _ hw)
    unfold workerLoop applyRows
    rw [rowLoop_eq funcList hst v 0 [] hv, List.drop_zero]
    cases applyRow funcList v with
    | error e => rfl
    | ok output =>
      simp only [List.nil_append]
      rw [ih (sent ++ [output]) hrest]
      cases applyRows funcList rest with
      | error e => rfl
      | ok outputs => simp

/-- A row of the specification that is produced has the arity of the input
row, and its cell `i` is the result of function `i` on input cell `i`. -/
theorem applyRow_ok :
    ∀ (fs : List CellFunc) (v out : List GoString), fs.length = v.length →
      applyRow fs v = .ok out →
      out.length = v.length ∧
      ∀ i, i < v.length → ∃ (f : CellFunc) (value cell : GoString),
        fs[i]? = some f ∧ v[i]? = some value ∧
        (f.call value).1 = .ok cell ∧ out[i]? = some cell := by
  intro fs
  induction fs with
  | nil =>
    intro v out hlen h
    have hv : v = [] := List.length_eq_zero.mp hlen.symm
    subst hv
    simp only [applyRow, Except.ok.injEq] at h
    subst h
    exact ⟨rfl, fun i hi => absurd hi (Nat.not_lt_zero i)⟩
  | cons f fs ih =>
    intro v out hlen h
    cases v with
    | nil => simp at hlen
    | cons value rest =>
      have hlen2 : fs.length = rest.length := by simpa using hlen
      unfold applyRow at h
      cases hc : (f.call value).1 with
      | error e => rw [hc] at h; cases h
      | ok cell =>
        rw [hc] at h
        simp only at h
        cases hr : applyRow fs rest with
        | error e => rw [hr] at h; cases h
        | ok cells =>
          rw [hr] at h
          simp only [Except.ok.injEq] at h
          subst h
          obtain ⟨hl, hcells⟩ := ih rest cells hlen2 hr
          refine ⟨by simp [hl], ?_⟩
          intro i hi
          cases i with
          | zero => exact ⟨f, value, cell, by simp, by simp, hc, by simp⟩
          | succ n =>
            obtain ⟨g, w, c, hg, hw, hcall, hout⟩ := hcells n (by simpa using hi)
            exact ⟨g, w, c, by simpa using hg, by simpa using hw, hcall, by simpa using hout⟩

/-- A row of the specification fails only with the panic of one of the
bound functions on its cell. -/
theorem applyRow_error :
    ∀ (fs : List CellFunc) (v : List GoString) (e : String), applyRow fs v = .error e →
      ∃ (i : Nat) (f : CellFunc) (value : GoString),
        fs[i]? = some f ∧ v[i]? = some value ∧ (f.call value).1 = .error e := by
  intro fs
  induction fs with
  | nil => intro v e h; simp [applyRow] at h
  | cons f fs ih =>
    intro v e h
    cases v with
    | nil => simp [applyRow] at h
    | cons value rest =>
      unfold applyRow at h
      cases hc : (f.call value).1 with
      | error e1 =>
        rw [hc] at h
        simp only [Except.error.injEq] at h
        exact ⟨0, f, value, by simp, by simp, by rw [hc, h]⟩
      | ok cell =>
        rw [hc] at h
        simp only at h
        cases hr : applyRow fs rest with
        | error e1 =>
          rw [hr] at h
          simp only [Except.error.injEq] at h
          obtain ⟨i, g, w, hg, hw, hcall⟩ := ih rest e1 hr
          exact ⟨i + 1, g, w, by simpa using hg, by simpa using hw, by rw [hcall, h]⟩
        | ok cells => rw [hr] at h; cases h

/-- C17: when the function vector has been built for a column list of
length `n` and every raw row has arity `n`, the vector has length `n` and
the worker sends, in order, one row per raw row, computed without any
lookup outside the vector: a row that is sent has arity `n` and its cell
`i` is the result of bound function `i` on input cell `i`; the worker
stops only by the panic of a bound function on its cell. -/
theorem procData_rows (fl : FloatLib) (cr : CryptoLib) (options : OptionsMap)
    (headerInfo : List GoString) (funcList : List CellFunc) (rows : List (List GoString))
    (hb : buildFuncList fl cr options headerInfo = .ok funcList)
    (hrows : ∀ v ∈ rows, v.length = headerInfo.length) :
    funcList.length = headerInfo.length ∧
    procData fl cr options headerInfo rows = applyRows funcList rows ∧
    (∀ v ∈ rows, ∀ out, applyRow funcList v = .ok out →
      out.length = headerInfo.length ∧
      ∀ i, i < headerInfo.length → ∃ (f : CellFunc) (value cell : GoString),
        funcList[i]? = some f ∧ v[i]? = some value ∧
        (f.call value).1 = .ok cell ∧ out[i]? = some cell) ∧
    (∀ v ∈ rows, ∀ e, applyRow funcList v = .error e →
      ∃ (i : Nat) (f : CellFunc) (value : GoString),
        funcList[i]? = some f ∧ v[i]? = some value ∧ (f.call value).1 = .error e) := by
  have hlen := buildFuncList_length fl cr options headerInfo funcList hb
  have hst := buildFuncList_stable fl cr options headerInfo funcList hb
  refine ⟨hlen, ?_, ?_, ?_⟩
  · unfold procData
    rw [hb]
    simp only
    rw [workerLoop_eq funcList hst rows [] (fun v hv => by rw [hlen, hrows v hv])]
    cases applyRows funcList rows with
    | error e => rfl
    | ok outputs => simp
  · intro v hv out hout
    have hvl := hrows v hv
    obtain ⟨h1, h2⟩ := applyRow_ok funcList v out (by rw [hlen, hvl]) hout
    exact ⟨by rw [h1, hvl], fun i hi => h2 i (by rw [hvl]; exact hi)⟩
  · intro v _ e he
    exact applyRow_error funcList v e he

/-- Witness of C17: the sample descriptor and header, and one raw row of
arity 4. -/
theorem procData_rows_witness :
    sampleFuncList.length = sampleHeader.length ∧
    procData exactLib toyCrypto sampleOptions sampleHeader
        [["1".toList, "abcdef".toList, "n".toList, "30".toList]] =
      applyRows sampleFuncList [["1".toList, "abcdef".toList, "n".toList, "30".toList]] ∧
    (∀ v ∈ [["1".toList, "abcdef".toList, "n".toList, "30".toList]], ∀ out,
      applyRow sampleFuncList v = .ok out →
      out.length = sampleHeader.length ∧
      ∀ i, i < sampleHeader.length → ∃ (f : CellFunc) (value cell : GoString),
        sampleFuncList[i]? = some f ∧ v[i]? = some value ∧
        (f.call value).1 = .ok cell ∧ out[i]? = some cell) ∧
    (∀ v ∈ [["1".toList, "abcdef".toList, "n".toList, "30".toList]], ∀ e,
      applyRow sampleFuncList v = .error e →
      ∃ (i : Nat) (f : CellFunc) (value : GoString),
        sampleFuncList[i]? = some f ∧ v[i]? = some value ∧ (f.call value).1 = .error e) :=
  procData_rows exactLib toyCrypto sampleOptions sampleHeader sampleFuncList
    [["1".toList, "abcdef".toList, "n".toList, "30".toList]] rfl (by decide)

/-- The sample worker on two rows: the masked column keeps its ends, the
unknown method drops the cell, the other columns pass. -/
theorem procData_example :
    procData exactLib toyCrypto sampleOptions sampleHeader
        [["1".toList, "abcdef".toList, "n".toList, "30".toList],
         ["2".toList, "ab".toList, "m".toList, "41".toList]] =
      .ok [["1".toList, "ab**ef".toList, [], "30".toList],
           ["2".toList, [], [], "41".toList]] := by
  decide

/-- A row longer than the function vector makes the lookup `funcList[i]`
panic: the arity precondition of C17 is needed. -/
theorem procData_long_row_panics :
    procData exactLib toyCrypto sampleOptions sampleHeader
        [["1".toList, "abcdef".toList, "n".toList, "30".toList, "extra".toList]] =
      .error "index out of range" := by
  decide

/-! ## Panics of the masking function -/

/-- C19 (code at the failing inputs): with fore 1 and aft 1 the masking
function is built without a panic, yet each of the three panics is
reachable in the function it returns: an empty mask character with
`keepLength` divides by zero on `abc`; the mask `xy` with `keepLength`
gives a three-byte middle on `abcde`, one copy of the mask, and the slice
`mask[0:3]` is out of range; without `keepLength` the input `a⏎b` passes
the length guard, the pattern fails to match and `resIndex[2]` is out of
range. -/
theorem masking_panics_reachable :
    (∃ f, buildMaskingFunc (maskOneOne [] "true".toList) = .ok f) ∧
    runMasking (maskOneOne [] "true".toList) "abc".toList
      = .error "integer divide by zero" ∧
    (∃ f, buildMaskingFunc (maskOneOne "xy".toList "true".toList) = .ok f) ∧
    runMasking (maskOneOne "xy".toList "true".toList) "abcde".toList
      = .error "slice bounds out of range" ∧
    (∃ f, buildMaskingFunc (maskOneOne "*".toList "false".toList) = .ok f) ∧
    runMasking (maskOneOne "*".toList "false".toList) "a\nb".toList
      = .error "index out of range" :=
  ⟨⟨_, rfl⟩, by decide, ⟨_, rfl⟩, by decide, ⟨_, rfl⟩, by decide⟩

/-- Where the masking function with `keepLength` is safe: on a non-empty
input without a newline that has at least `fore + aft` characters it
returns a string exactly when the mask character is not empty and its
byte length divides the byte length of the middle. -/
theorem maskingFunc_keepLength_safe_iff (fore aft : Int) (hf : 0 ≤ fore) (ha : 0 ≤ aft)
    (maskChar s : GoString) (hs : s ≠ []) (hnl : ∀ c ∈ s, c ≠ '\n')
    (hlen : fore.toNat + aft.toNat ≤ s.length) :
    (∃ out, maskingFunc { fore := fore, aft := aft } fore aft maskChar true s = .ok out) ↔
      (len maskChar ≠ 0 ∧
        len maskChar ∣ len ((s.drop fore.toNat).take (s.length - fore.toNat - aft.toNat))) := by
  rw [maskingFunc_keepLength_of_match fore aft hf ha maskChar s hs hnl hlen]
  by_cases hz : len maskChar = 0
  · rw [if_pos hz]
    constructor
    · rintro ⟨out, h⟩; cases h
    · rintro ⟨h, _⟩; exact absurd hz h
  · rw [if_neg hz]
    by_cases hd : len maskChar ∣
        len ((s.drop fore.toNat).take (s.length - fore.toNat - aft.toNat))
    · rw [if_pos hd]
      exact ⟨fun _ => ⟨hz, hd⟩, fun _ => ⟨_, rfl⟩⟩
    · rw [if_neg hd]
      constructor
      · rintro ⟨out, h⟩; cases h
      · rintro ⟨_, h⟩; exact absurd h hd

/-! ## The count query where no name contains `FROM` -/

/-- Scanning a text in which `FROM` does not occur, followed by ` FROM `:
the first occurrence found is the keyword. -/
theorem indexLoop_keyword (rest : GoString) :
    ∀ (b : GoString) (off : Nat), ¬ "FROM".toList <:+: b →
      indexLoop "FROM".toList (b ++ " FROM ".toList ++ rest) off = ((off + len b + 1 : Nat) : Int) := by
  intro b
  induction b with
  | nil =>
    intro off _
    simp [indexLoop, List.isPrefixOf, len, Char.utf8Size]
  | cons c b ih =>
    intro off hno
    have hno2 : ¬ "FROM".toList <:+: b := fun h => hno (h.trans (List.suffix_cons c b).isInfix)
    have hpre : ("FROM".toList).isPrefixOf (c :: b ++ " FROM ".toList ++ rest) = false := by
      cases hp : ("FROM".toList).isPrefixOf (c :: b ++ " FROM ".toList ++ rest) with
      | false => rfl
      | true =>
        exfalso
        match b, hno, hp with
        | [], _, hp => simp [List.isPrefixOf] at hp
        | [x], _, hp => simp [List.isPrefixOf] at hp
        | [x, y], _, hp => simp [List.isPrefixOf] at hp
        | x :: y :: z :: t, hno, hp =>
          apply hno
          simp only [String.toList, List.cons_append, List.isPrefixOf, Bool.and_eq_true,
            beq_iff_eq, Bool.and_true] at hp
          obtain ⟨h1, h2, h3, h4⟩ := hp
          subst h1 h2 h3 h4
          exact (List.prefix_append ['F', 'R', 'O', 'M'] t).isInfix
    rw [show c :: b ++ " FROM ".toList ++ rest = c :: (b ++ " FROM ".toList ++ rest) from rfl] at hpre ⊢
    unfold indexLoop
    rw [hpre]
    simp only [Bool.false_eq_true, if_false]
    rw [ih _ hno2, len_cons]
    congr 1
    omega

/-- When `FROM` does not occur before the keyword, the count query keeps
everything from the keyword on and replaces what precedes it. -/
theorem modifiedQuery_of_clean (pre rest : GoString) (h : ¬ "FROM".toList <:+: pre) :
    modifiedQuery (pre ++ " FROM ".toList ++ rest) =
      .ok ("SELECT COUNT(*) FROM ".toList ++ rest) := by
  have hidx : stringsIndex (pre ++ " FROM ".toList ++ rest) "FROM".toList
      = ((len pre + 1 : Nat) : Int) := by
    unfold stringsIndex
    rw [indexLoop_keyword rest pre 0 h, Nat.zero_add]
  have hsplit : pre ++ " FROM ".toList ++ rest = (pre ++ " FROM".toList) ++ (' ' :: rest) := by
    simp
  have hlen : len (pre ++ " FROM".toList) = len pre + 1 + 4 := by
    rw [len_append]
    have : len " FROM".toList = 5 := by decide
    omega
  have hslice := goSlice_tail (pre ++ " FROM".toList) (' ' :: rest)
  rw [hlen, ← hsplit] at hslice
  unfold modifiedQuery
  simp only [hidx]
  have hcast : ((len pre + 1 : Nat) : Int) + 4 = ((len pre + 1 + 4 : Nat) : Int) := by
    push_cast
    rfl
  rw [hcast, hslice]
  simp

/-- Where C15 holds: if `FROM` does not occur in `SELECT ` followed by the
projection, the count query derived from any statement that
`CreateQuerySyntax` returns is `SELECT COUNT(*) FROM ` followed by
everything that follows the keyword in the statement. -/
theorem GetDataSize_count_query (fl : FloatLib) (options : QueryOptions fl.F)
    (hclean : ¬ "FROM".toList <:+: ("SELECT ".toList ++ projectionOf options))
    (params : Option (List GoString)) (stmt : GoString) (err : Option GoString)
    (h : CreateQuerySyntax fl options params = .ok (stmt, err)) :
    ∃ rest, stmt = "SELECT ".toList ++ projectionOf options ++ " FROM ".toList ++ rest ∧
      modifiedQuery stmt = .ok ("SELECT COUNT(*) FROM ".toList ++ rest) := by
  obtain ⟨_, rest, hrest⟩ := CreateQuerySyntax_returns fl options params stmt err h
  refine ⟨baseTableOf options ++ rest, by rw [hrest]; simp only [List.append_assoc], ?_⟩
  rw [hrest]
  have := modifiedQuery_of_clean ("SELECT ".toList ++ projectionOf options)
    (baseTableOf options ++ rest) hclean
  rw [← this]
  simp only [List.append_assoc]

/-! ## Ranging over an ascending boundary list -/

/-- The comparison of the exact instance is an order in the sense of
`IsFloatOrder`. -/
theorem exact_isFloatOrder : IsFloatOrder exactLib Exact.le := by
  constructor
  · intro a b c hab hbc
    simp only [Exact.le, decide_eq_true_eq] at hab hbc ⊢
    obtain ⟨ha, hb, h1⟩ := hab
    obtain ⟨_, hc, h2⟩ := hbc
    refine ⟨ha, hc, ?_⟩
    have hbpos : (0 : Int) < (b.den : Int) := by
      have : 0 < b.den := Nat.pos_of_ne_zero hb
      exact_mod_cast this
    have hapos : (0 : Int) ≤ (a.den : Int) := Int.ofNat_nonneg _
    have hcpos : (0 : Int) ≤ (c.den : Int) := Int.ofNat_nonneg _
    have h1' := mul_le_mul_of_nonneg_right h1 hcpos
    have h2' := mul_le_mul_of_nonneg_right h2 hapos
    have h3 : a.num * c.den * b.den ≤ c.num * a.den * b.den := by
      calc a.num * c.den * b.den = a.num * b.den * c.den := by ring
        _ ≤ b.num * a.den * c.den := h1'
        _ = b.num * c.den * a.den := by ring
        _ ≤ c.num * b.den * a.den := h2'
        _ = c.num * a.den * b.den := by ring
    exact le_of_mul_le_mul_right h3 hbpos
  · intro a b hab
    simp only [Exact.le, decide_eq_true_eq] at hab
    obtain ⟨_, _, h⟩ := hab
    show Exact.gt a b = false
    simp only [Exact.gt, decide_eq_false_iff_not, not_and, not_lt]
    intro _ _
    exact h

/-- Scaling a magnitude scales the signed integer. -/
theorem signed_mul (n : Bool) (m k : Nat) :
    F64.signed n (m * k) = F64.signed n m * (k : Int) := by
  unfold F64.signed
  cases n <;> simp

/-- On finite values the comparison is the comparison of the rational
numbers `(-1)^neg * m * 2^e`. -/
theorem F64.le_fin_iff (na : Bool) (ma : Nat) (ea : Int) (nb : Bool) (mb : Nat) (eb : Int) :
    F64.le (.fin na ma ea) (.fin nb mb eb) = true ↔
      ((F64.signed na ma : Int) : ℚ) * (2 : ℚ) ^ ea ≤ ((F64.signed nb mb : Int) : ℚ) * (2 : ℚ) ^ eb := by
  simp only [F64.le, decide_eq_true_eq, signed_mul]
  generalize he : (if ea ≤ eb then ea else eb) = e
  have hea : e ≤ ea := by rw [← he]; split <;> omega
  have heb : e ≤ eb := by rw [← he]; split <;> omega
  have h2 : (0 : ℚ) < (2 : ℚ) ^ e := zpow_pos (by norm_num) e
  have ha : (2 : ℚ) ^ ea = ((2 ^ (ea - e).toNat : Nat) : ℚ) * (2 : ℚ) ^ e := by
    have : ea = ((ea - e).toNat : Int) + e := by
      rw [Int.toNat_of_nonneg (by omega)]; ring
    conv_lhs => rw [this]
    rw [zpow_add₀ (by norm_num), zpow_natCast]
    push_cast
    rfl
  have hb : (2 : ℚ) ^ eb = ((2 ^ (eb - e).toNat : Nat) : ℚ) * (2 : ℚ) ^ e := by
    have : eb = ((eb - e).toNat : Int) + e := by
      rw [Int.toNat_of_nonneg (by omega)]; ring
    conv_lhs => rw [this]
    rw [zpow_add₀ (by norm_num), zpow_natCast]
    push_cast
    rfl
  rw [ha, hb, ← mul_assoc, ← mul_assoc, mul_le_mul_right h2]
  constructor
  · intro h
    exact_mod_cast h
  · intro h
    exact_mod_cast h

/-- The comparison of the binary64 instance is an order in the sense of
`IsFloatOrder`. -/
theorem f64_isFloatOrder : IsFloatOrder f64Lib F64.le := by
  constructor
  · intro a b c hab hbc
    match a, b, c, hab, hbc with
    | .fin na ma ea, .fin nb mb eb, .fin nc mc ec, hab, hbc =>
      rw [F64.le_fin_iff] at hab hbc ⊢
      exact le_trans hab hbc
    | .nan, _, _, hab, _ => simp [F64.le] at hab
    | .inf _, .nan, _, hab, _ => simp [F64.le] at hab
    | .fin _ _ _, .nan, _, hab, _ => simp [F64.le] at hab
    | .inf _, .inf _, .nan, _, hbc => simp [F64.le] at hbc
    | .inf _, .fin _ _ _, .nan, _, hbc => simp [F64.le] at hbc
    | .fin _ _ _, .inf _, .nan, _, hbc => simp [F64.le] at hbc
    | .fin _ _ _, .fin _ _ _, .nan, _, hbc => simp [F64.le] at hbc
    | .inf x, .inf y, .inf z, hab, hbc =>
      cases x <;> cases y <;> cases z <;> simp_all [F64.le]
    | .inf x, .inf y, .fin _ _ _, hab, hbc =>
      cases x <;> cases y <;> simp_all [F64.le]
    | .inf x, .fin _ _ _, .inf z, hab, hbc =>
      cases x <;> cases z <;> simp_all [F64.le]
    | .inf x, .fin _ _ _, .fin _ _ _, hab, hbc =>
      cases x <;> simp_all [F64.le]
    | .fin _ _ _, .inf y, .inf z, hab, hbc =>
      cases y <;> cases z <;> simp_all [F64.le]
    | .fin _ _ _, .inf y, .fin _ _ _, hab, hbc =>
      cases y <;> simp_all [F64.le]
    | .fin _ _ _, .fin _ _ _, .inf z, hab, hbc =>
      cases z <;> simp_all [F64.le]
  · intro a b hab
    show F64.gt a b = false
    match a, b, hab with
    | .fin na ma ea, .fin nb mb eb, hab =>
      simp only [F64.le, decide_eq_true_eq] at hab
      simp only [F64.gt, decide_eq_false_iff_not, not_lt, gt_iff_lt]
      exact hab
    | .nan, _, hab => simp [F64.le] at hab
    | .inf _, .nan, hab => simp [F64.le] at hab
    | .fin _ _ _, .nan, hab => simp [F64.le] at hab
    | .inf x, .inf y, hab => cases x <;> cases y <;> simp_all [F64.le, F64.gt]
    | .inf x, .fin _ _ _, hab => cases x <;> simp_all [F64.le, F64.gt]
    | .fin _ _ _, .inf y, hab => cases y <;> simp_all [F64.le, F64.gt]

section RangeOrd
variable (fl : FloatLib)

/-- C5 (amended): for the function returned by `buildRangingFunc` with
parseable lower, upper and bin whose computed boundaries `b_0 .. b_n`
ascend (`b_i <= b_j` for `i < j` in the float64 order, in which a NaN is
not `<=` anything), and a parseable input `v`: if `b_k <= v < b_{k+1}`
then `b_{k+1}` is the first boundary strictly greater than `v` and the
output is `str(b_k) ~ str(b_{k+1})`; if `v >= U` the output is
`str(U) ~ `. The order `le` is any comparison that is transitive and
excludes `>`, as `<=` of float64 is. -/
theorem buildRangingFunc_partition (le : fl.F → fl.F → Bool) (hord : IsFloatOrder fl le)
    (options : AnoOption) (lowBound upBound : fl.F)
    (binNum : Int) (inString : GoString) (value : fl.F)
    (hl : fl.parseFloat options.Lower = some lowBound)
    (hu : fl.parseFloat options.Upper = some upBound)
    (hb : parseInt options.Bin = some binNum)
    (hv : fl.parseFloat inString = some value)
    (hasc : (buildBoundary fl lowBound upBound binNum).Pairwise (fun a b => le a b = true)) :
    (∀ (k : Nat) (bk bk1 : fl.F),
      (buildBoundary fl lowBound upBound binNum)[k]? = some bk →
      (buildBoundary fl lowBound upBound binNum)[k + 1]? = some bk1 →
      le bk value = true → fl.gt bk1 value = true →
      (∀ j b, j ≤ k → (buildBoundary fl lowBound upBound binNum)[j]? = some b →
        fl.gt b value = false) ∧
      buildRangingFunc fl options inString = fl.fmtV bk ++ " ~ ".toList ++ fl.fmtV bk1) ∧
    (le upBound value = true →
      buildRangingFunc fl options inString = fl.fmtV upBound ++ " ~ ".toList) := by
  have hf : buildRangingFunc fl options inString =
      rangingLoop fl value (buildBoundary fl lowBound upBound binNum) [] [] := by
    simp only [buildRangingFunc, hl, hu, hb, rangingFunc, hv]
  obtain ⟨htrans, hnot⟩ := hord
  have hidx := List.pairwise_iff_getElem.mp hasc
  refine ⟨?_, ?_⟩
  · intro k bk bk1 hk hk1 hle hgt
    have hfirst : ∀ j b, j ≤ k → (buildBoundary fl lowBound upBound binNum)[j]? = some b →
        fl.gt b value = false := ?_
    · refine ⟨hfirst, ?_⟩
      rw [hf]
      exact rangingLoop_stop fl value bk bk1 k _ [] [] hfirst hk hk1 hgt
    intro j b hj hbj
    rcases Nat.lt_or_eq_of_le hj with hlt | heq
    · obtain ⟨hj1, hj2⟩ := List.getElem?_eq_some_iff.mp hbj
      obtain ⟨hk1', hk2⟩ := List.getElem?_eq_some_iff.mp hk
      have h1 := hidx j k hj1 hk1' hlt
      rw [hj2, hk2] at h1
      exact hnot _ _ (htrans _ _ _ h1 hle)
    · subst heq
      have : b = bk := Option.some.inj (hbj.symm.trans hk)
      subst this
      exact hnot _ _ hle
  · intro hle
    have hall : ∀ b ∈ buildBoundary fl lowBound upBound binNum, fl.gt b value = false := by
      intro b hmem
      have hlast : (buildBoundary fl lowBound upBound binNum).getLast? = some upBound := by
        rw [buildBoundary_eq]; simp
      rcases List.mem_iff_getElem.mp hmem with ⟨j, hj, hjb⟩
      by_cases hjl : j + 1 = (buildBoundary fl lowBound upBound binNum).length
      · have : b = upBound := by
          rw [List.getLast?_eq_getElem?] at hlast
          have hj' : (buildBoundary fl lowBound upBound binNum).length - 1 = j := by omega
          rw [hj', List.getElem?_eq_getElem hj, hjb] at hlast
          exact Option.some.inj hlast
        subst this
        exact hnot _ _ hle
      · have hlen : (buildBoundary fl lowBound upBound binNum).length - 1 <
            (buildBoundary fl lowBound upBound binNum).length := by omega
        have hjlt : j < (buildBoundary fl lowBound upBound binNum).length - 1 := by omega
        have h1 := hidx j _ hj hlen hjlt
        rw [List.getLast?_eq_getElem?, List.getElem?_eq_getElem hlen] at hlast
        rw [hjb, Option.some.inj hlast] at h1
        exact hnot _ _ (htrans _ _ _ h1 hle)
    rw [hf, rangingLoop_end fl value _ [] [] hall, buildBoundary_eq]
    simp

end RangeOrd

set_option exponentiation.threshold 5000 in
set_option maxRecDepth 100000 in
/-- Witness of C5 on binary64 at scenario S4 (lower 0, upper 100, bin 4):
the boundaries 0, 25, 50, 75, 100 ascend; `25 <= 37 < 50` gives `25 ~ 50`,
and `100 >= 100` gives `100 ~ `. -/
theorem buildRangingFunc_partition_witness :
    (buildBoundary f64Lib (F64.ofInt 0) (F64.ofInt 100) 4).Pairwise
      (fun a b => F64.le a b = true) ∧
    F64.le (F64.ofInt 25) (F64.ofInt 37) = true ∧
    F64.gt (F64.ofInt 50) (F64.ofInt 37) = true ∧
    buildRangingFunc f64Lib rangeS4 "37".toList
      = f64Lib.fmtV (F64.ofInt 25) ++ " ~ ".toList ++ f64Lib.fmtV (F64.ofInt 50) ∧
    buildRangingFunc f64Lib rangeS4 "37".toList = "25 ~ 50".toList ∧
    F64.le (F64.ofInt 100) (F64.ofInt 100) = true ∧
    buildRangingFunc f64Lib rangeS4 "100".toList
      = f64Lib.fmtV (F64.ofInt 100) ++ " ~ ".toList ∧
    buildRangingFunc f64Lib rangeS4 "100".toList = "100 ~ ".toList :=
  ⟨by decide, by decide, by decide,
    ((buildRangingFunc_partition f64Lib F64.le f64_isFloatOrder rangeS4 (F64.ofInt 0)
      (F64.ofInt 100) 4 "37".toList (F64.ofInt 37) (by decide) (by decide) (by decide)
      (by decide) (by decide)).1 1 (F64.ofInt 25) (F64.ofInt 50) (by decide) (by decide)
      (by decide) (by decide)).2,
    by decide, by decide,
    (buildRangingFunc_partition f64Lib F64.le f64_isFloatOrder rangeS4 (F64.ofInt 0)
      (F64.ofInt 100) 4 "100".toList (F64.ofInt 100) (by decide) (by decide) (by decide)
      (by decide) (by decide)).2 (by decide),
    by decide⟩

set_option exponentiation.threshold 5000 in
set_option maxRecDepth 100000 in
/-- C5 (counterexample): on binary64 with lower `-1e308`, upper `1e308`
and bin 4 (lower is below upper) the difference `upper - lower` overflows
and the boundaries are NaN, +Inf, +Inf, +Inf, 1e308. The input `1e308` is
at least upper, yet the output is `NaN ~ +Inf`, which does not end in the
tilde; the input `0`, between lower and upper, gives the same output. -/
theorem ranging_fails_on_overflow :
    f64Lib.parseFloat rangeBig.Lower = some (bigBound true) ∧
    f64Lib.parseFloat rangeBig.Upper = some (bigBound false) ∧
    parseInt rangeBig.Bin = some 4 ∧
    F64.le (bigBound true) (bigBound false) = true ∧
    buildBoundary f64Lib (bigBound true) (bigBound false) 4
      = [.nan, .inf false, .inf false, .inf false, bigBound false] ∧
    f64Lib.parseFloat "1e308".toList = some (bigBound false) ∧
    F64.le (bigBound false) (bigBound false) = true ∧
    buildRangingFunc f64Lib rangeBig "1e308".toList = "NaN ~ +Inf".toList ∧
    buildRangingFunc f64Lib rangeBig "1e308".toList
      ≠ f64Lib.fmtV (bigBound false) ++ " ~ ".toList ∧
    ¬ (" ~ ".toList <:+ buildRangingFunc f64Lib rangeBig "1e308".toList) ∧
    buildRangingFunc f64Lib rangeBig "0".toList = "NaN ~ +Inf".toList := by
  decide

set_option exponentiation.threshold 5000 in
set_option maxRecDepth 100000 in
/-- C7 (counterexample): on binary64, (1) with bin `-1` (which `ParseInt`
accepts) the boundary list has one entry, not `bin + 1 = 0`, and with bin
`0` its first entry is upper, not lower; (2) with lower `-1e308`, upper
`1e308`, bin 4 the first entry is NaN, not lower, because `upper - lower`
overflows; (3) with lower 0, upper 1, bin 10 the entries 2 and 3 differ by
a value other than the step `(upper - lower) / bin`, because the products
are rounded. -/
theorem boundary_not_equal_steps :
    parseInt "-1".toList = some (-1) ∧
    ((buildBoundary f64Lib (F64.ofInt 0) (F64.ofInt 100) (-1)).length : Int) ≠ -1 + 1 ∧
    (buildBoundary f64Lib (F64.ofInt 0) (F64.ofInt 100) 0).head? ≠ some (F64.ofInt 0) ∧
    f64Lib.parseFloat "-1e308".toList = some (bigBound true) ∧
    f64Lib.parseFloat "1e308".toList = some (bigBound false) ∧
    (buildBoundary f64Lib (bigBound true) (bigBound false) 4).head? = some F64.nan ∧
    (buildBoundary f64Lib (bigBound true) (bigBound false) 4).head? ≠ some (bigBound true) ∧
    (buildBoundary f64Lib (F64.ofInt 0) (F64.ofInt 1) 10)[2]?
      = some (.fin false 7205759403792794 (-55)) ∧
    (buildBoundary f64Lib (F64.ofInt 0) (F64.ofInt 1) 10)[3]?
      = some (.fin false 5404319552844596 (-54)) ∧
    f64Lib.sub (.fin false 5404319552844596 (-54)) (.fin false 7205759403792794 (-55))
      ≠ f64Lib.div (f64Lib.sub (F64.ofInt 1) (F64.ofInt 0)) (f64Lib.ofInt 10) := by
  decide

/-! ## Rounding on binary64 -/

/-- C8 (amended): for the function returned by `buildRoundingFunc` with
algorithm `op` among round, ceil, floor and `position ≤ 0`, with
`m = math.Pow(10, |position|)`: for every input that parses as a number
`v`, the output is `FormatFloat(op(v / m) * m, 'f', 0)`, the rendering
with no fractional digits of the float64 value computed by one float64
division and one float64 multiplication. -/
theorem buildRoundingFunc_nonpositive (fl : FloatLib) (options : AnoOption)
    (op : fl.F → fl.F) (inString : GoString) (value : fl.F)
    (halg : (options.Algorithm = "round".toList ∧ op = fl.round) ∨
      (options.Algorithm = "ceil".toList ∧ op = fl.ceil) ∨
      (options.Algorithm = "floor".toList ∧ op = fl.floor))
    (hp : options.Position ≤ 0)
    (hv : fl.parseFloat inString = some value) :
    buildRoundingFunc fl options inString =
      fl.formatFloat
        (fl.mul (op (fl.div value (fl.pow (fl.ofInt 10) (fl.abs (fl.ofInt options.Position)))))
          (fl.pow (fl.ofInt 10) (fl.abs (fl.ofInt options.Position)))) 0 := by
  have hcr : ("ceil".toList : GoString) ≠ "round".toList := by decide
  have hfr : ("floor".toList : GoString) ≠ "round".toList := by decide
  have hfc : ("floor".toList : GoString) ≠ "ceil".toList := by decide
  rcases halg with ⟨ha, ho⟩ | ⟨ha, ho⟩ | ⟨ha, ho⟩
  · subst ho
    simp only [buildRoundingFunc, ha, if_true, roundingFunc, hv, if_neg (not_lt.mpr hp)]
  · subst ho
    simp only [buildRoundingFunc, ha, if_neg hcr, if_true, roundingFunc, hv,
      if_neg (not_lt.mpr hp)]
  · subst ho
    simp only [buildRoundingFunc, ha, if_neg hfr, if_neg hfc, if_true, roundingFunc, hv,
      if_neg (not_lt.mpr hp)]

set_option exponentiation.threshold 5000 in
set_option maxRecDepth 100000 in
/-- Witness of C8 on binary64: floor with position `-2`, where `m` is 100;
the inputs `12345.6` and `99` give `12300` and `0`. -/
theorem buildRoundingFunc_nonpositive_witness :
    f64Lib.pow (f64Lib.ofInt 10) (f64Lib.abs (f64Lib.ofInt (-2))) = F64.ofInt 100 ∧
    buildRoundingFunc f64Lib { Algorithm := "floor".toList, Position := -2 } "12345.6".toList
      = F64.formatFloat (F64.mul (F64.floor (F64.div (.fin false 6787065375935693 (-39))
          (F64.pow (F64.ofInt 10) (F64.abs (F64.ofInt (-2))))))
          (F64.pow (F64.ofInt 10) (F64.abs (F64.ofInt (-2))))) 0 ∧
    buildRoundingFunc f64Lib { Algorithm := "floor".toList, Position := -2 } "12345.6".toList
      = "12300".toList ∧
    buildRoundingFunc f64Lib { Algorithm := "floor".toList, Position := -2 } "99".toList
      = "0".toList :=
  ⟨by decide,
    buildRoundingFunc_nonpositive f64Lib { Algorithm := "floor".toList, Position := -2 }
      F64.floor "12345.6".toList (.fin false 6787065375935693 (-39))
      (Or.inr (Or.inr ⟨rfl, rfl⟩)) (by decide) (by decide),
    by decide, by decide⟩

set_option exponentiation.threshold 5000 in
set_option maxRecDepth 100000 in
/-- C8 (counterexample): on binary64, floor with position `-2` maps the
input `1152921504606846976` (which is `2^60`) to `1152921504606846976`:
the quotient by 100 is rounded to `11529215046068470`, and its product with
100 is rounded back to `2^60`, which is not a multiple of 100. -/
theorem rounding_result_not_a_multiple :
    f64Lib.parseFloat "1152921504606846976".toList = some (.fin false (2 ^ 52) 8) ∧
    F64.floor (F64.div (.fin false (2 ^ 52) 8) (F64.ofInt 100)) = F64.ofInt 11529215046068470 ∧
    F64.mul (F64.ofInt 11529215046068470) (F64.ofInt 100) = .fin false (2 ^ 52) 8 ∧
    buildRoundingFunc f64Lib { Algorithm := "floor".toList, Position := -2 }
      "1152921504606846976".toList = "1152921504606846976".toList ∧
    parseDigits "1152921504606846976".toList 0 = some (2 ^ 60) ∧
    2 ^ 60 % 100 ≠ 0 := by
  decide

end Dems
